import Mathlib

/-!
# Verification of the `leo` task-graph library

A shallow embedding of `leo.go` (package `leo`): a directed task graph with
cycle-rejecting edge insertion (`Add`, `Precede`, `Succeed`, `hasCycle`,
`dfsCheckCycle`) and a concurrent executor (`NewExecutor`, `Execute`).

Modelling conventions:
* A Go `*Node` is identified by its `name` key: nodes live only in the
  `nodes` map, `Add` creates a fresh node per fresh key and nodes are never
  deleted, so pointer identity coincides with key identity.
* The Go map `map[string]*Node` is modelled as an association list
  `List (String × Node α)`; map iteration follows list order.  All verdicts
  proved about order-sensitive iterations (`hasCycle`) are shown equivalent
  to order-free semantic properties, which justifies fixing an order.
* The recursion of `dfsCheckCycle` is expressed with an explicit fuel
  parameter; `hasCycle` supplies fuel `g.nodes.length + 1` which is proved
  sufficient for well-formed graphs.
* Tasks (`TaskFunc = func() error`) are opaque values; for the executor the
  task type is `Option ε`: `none` models a task that completes, `some c` a
  task failing with cause `c`.
* The concurrency of `Execute` is modelled as a small-step transition
  relation in which the decrements performed by one completing goroutine
  form one atomic step (the serialized-decrement reading that the spec
  mandates); the data race actually present in the source is modelled
  separately at read/write granularity for the claim about synchronization.
-/

namespace Leo

/-- Embeds Go `type Node struct` of `leo.go`: a task value, the ordered
`children` slice, the `parents` slice and the node's `name`. -/
structure Node (α : Type) where
  task : α
  children : List String
  parents : List String
  name : String
deriving DecidableEq

/-- Embeds Go `type Graph struct`: the name-keyed node map (as an
association list) and the `startNodes` slice. -/
structure Graph (α : Type) where
  nodes : List (String × Node α)
  startNodes : List String
deriving DecidableEq

variable {α : Type}

/-- Lookup in the node map (`g.nodes[name]`). -/
def lookupNode (g : Graph α) (k : String) : Option (Node α) :=
  (g.nodes.find? (fun p => p.1 == k)).map (fun p => p.2)

/-- The key set of the node map. -/
def keys (g : Graph α) : List String := g.nodes.map Prod.fst

/-- Children slice of the node registered under `n` (empty if absent). -/
def childrenOf (g : Graph α) (n : String) : List String :=
  match lookupNode g n with
  | some nd => nd.children
  | none => []

/-- Parents slice of the node registered under `n` (empty if absent). -/
def parentsOf (g : Graph α) (n : String) : List String :=
  match lookupNode g n with
  | some nd => nd.parents
  | none => []

/-- Task of the node registered under `n`. -/
def taskOf (g : Graph α) (n : String) : Option α :=
  (lookupNode g n).map (fun nd => nd.task)

/-- Embeds Go `TaskGraph()`: the empty graph. -/
def TaskGraph : Graph α := ⟨[], []⟩

/-- Embeds Go `(*Graph).Add`: insert a fresh node (empty `children` and
`parents`, `name` set to the key) only when the key is absent, and append
it to `startNodes`; otherwise do nothing. -/
def Add (g : Graph α) (name : String) (task : α) : Graph α :=
  if (lookupNode g name).isSome then g
  else
    { nodes := g.nodes ++ [(name, ⟨task, [], [], name⟩)],
      startNodes := g.startNodes ++ [name] }

/-- Update the node stored under key `k` (Go `node.field = ...` through the
map pointer).  Every entry with key `k` is rewritten; under `Nodup` keys
this is the single entry the Go pointer designates. -/
def updNode (ns : List (String × Node α)) (k : String) (f : Node α → Node α) :
    List (String × Node α) :=
  ns.map (fun p => if p.1 = k then (p.1, f p.2) else p)

/-- The tentative edge insertion of `Precede`: append `t` to `f`'s
`children`, then `f` to `t`'s `parents`. -/
def addEdge (g : Graph α) (f t : String) : Graph α :=
  let ns := updNode g.nodes f (fun nd => { nd with children := nd.children ++ [t] })
  let ns2 := updNode ns t (fun nd => { nd with parents := nd.parents ++ [f] })
  { g with nodes := ns2 }

/-- The rollback of `Precede`: drop the last element of `f`'s `children`
and of `t`'s `parents` (Go `slice[:len(slice)-1]`). -/
def rollbackEdge (g : Graph α) (f t : String) : Graph α :=
  let ns := updNode g.nodes f (fun nd => { nd with children := nd.children.dropLast })
  let ns2 := updNode ns t (fun nd => { nd with parents := nd.parents.dropLast })
  { g with nodes := ns2 }

mutual

/-- Fuel-indexed embedding of Go `dfsCheckCycle` together with its loop
over `node.children`. `visited` and `recStack` are the two boolean maps;
the result is `none` only on fuel exhaustion (shown unreachable for the
fuel `hasCycle` supplies). `dfsVisit n` handles one call
`dfsCheckCycle(n, visited, recStack)`; `dfsFold` handles the
`for _, child := range node.children` loop body. -/
def dfsVisit (g : Graph α) :
    Nat → String → (String → Bool) → (String → Bool) →
      Option (Bool × (String → Bool) × (String → Bool))
  | 0, _, _, _ => none
  | fuel + 1, n, vis, stk =>
    if vis n then
      -- `if !visited[node]` guard fails: fall through to `recStack[node] = false`
      some (false, vis, fun x => if x = n then false else stk x)
    else
      let vis1 := fun x => if x = n then true else vis x
      let stk1 := fun x => if x = n then true else stk x
      match dfsFold g fuel (childrenOf g n) vis1 stk1 with
      | none => none
      | some (true, v, s) => some (true, v, s)
      | some (false, v, s) => some (false, v, fun x => if x = n then false else s x)
termination_by fuel _ _ _ => (fuel, 0)

/-- The loop over children: `if !visited[child] && dfs(child) { return true }
else if recStack[child] { return true }`. -/
def dfsFold (g : Graph α) :
    Nat → List String → (String → Bool) → (String → Bool) →
      Option (Bool × (String → Bool) × (String → Bool))
  | _, [], vis, stk => some (false, vis, stk)
  | fuel, c :: cs, vis, stk =>
    if vis c then
      -- short-circuit: `!visited[child]` is false, recursion not entered
      if stk c then some (true, vis, stk) else dfsFold g fuel cs vis stk
    else
      match dfsVisit g fuel c vis stk with
      | none => none
      | some (true, v, s) => some (true, v, s)
      | some (false, v, s) =>
        if s c then some (true, v, s) else dfsFold g fuel cs v s
termination_by fuel cs _ _ => (fuel, cs.length + 1)

end

/-- Embeds the `for _, node := range g.nodes` loop of Go `hasCycle`. -/
def hasCycleLoop (g : Graph α) :
    List (String × Node α) → (String → Bool) → (String → Bool) → Option Bool
  | [], _, _ => some false
  | e :: es, vis, stk =>
    if vis e.1 then hasCycleLoop g es vis stk
    else
      match dfsVisit g (g.nodes.length + 1) e.1 vis stk with
      | none => none
      | some (true, _, _) => some true
      | some (false, v, s) => hasCycleLoop g es v s

/-- Embeds Go `(*Graph).hasCycle`: full-graph DFS with fresh `visited` and
`recStack` maps. -/
def hasCycle (g : Graph α) : Bool :=
  (hasCycleLoop g g.nodes (fun _ => false) (fun _ => false)).getD false

/-- The two error kinds `Precede` can produce (`errors.New` values in Go). -/
inductive PrecedeError where
  | nodeNotFound
  | cycleDetected
deriving DecidableEq

/-- Embeds Go `(*Graph).Precede`: existence check, tentative edge, full
cycle re-check, rollback on cycle.  Returned as the post-call graph paired
with the error result (Go mutates in place and returns only the error). -/
def Precede (g : Graph α) (f t : String) : Graph α × Option PrecedeError :=
  if (lookupNode g f).isSome && (lookupNode g t).isSome then
    let g1 := addEdge g f t
    if hasCycle g1 then (rollbackEdge g1 f t, some .cycleDetected)
    else (g1, none)
  else (g, some .nodeNotFound)

/-- Embeds Go `(*Graph).Succeed`: `return g.Precede(to, from)`. -/
def Succeed (g : Graph α) (f t : String) : Graph α × Option PrecedeError :=
  Precede g t f

/-- Number of occurrences of `n` as a child anywhere in the graph (the
multiplicity with which Go `parentCounts` counts `n`). -/
def incomingCount (g : Graph α) (n : String) : Nat :=
  (g.nodes.map (fun p => p.2.children.count n)).sum

/-- First pass of Go `NewExecutor`: every node that occurs at least once
as a child (i.e. has an entry in `parentCounts`) gets its `parents` slice
reset to empty; other nodes are left untouched. -/
def resetParents (g : Graph α) : Graph α :=
  let ns := g.nodes.map (fun p =>
    if 0 < incomingCount g p.1 then (p.1, { p.2 with parents := [] }) else p)
  { g with nodes := ns }

/-- The edges of the graph as ordered (parent, child) pairs, following the
nested iteration of `NewExecutor`'s fill loop. -/
def edgeList (g : Graph α) : List (String × String) :=
  g.nodes.flatMap (fun p => p.2.children.map (fun c => (p.1, c)))

/-- Embeds Go `NewExecutor` (restricted to its observable effect on the
graph): reset the `parents` of all nodes with incoming edges, then for
every node and each of its children append the node to the child's
`parents`.  The returned `Executor` just wraps this graph. -/
def NewExecutor (g : Graph α) : Graph α :=
  let g1 := resetParents g
  let ns := (edgeList g1).foldl
    (fun ns pc => updNode ns pc.2 (fun nd => { nd with parents := nd.parents ++ [pc.1] }))
    g1.nodes
  { g1 with nodes := ns }

section Semantics

/-- A directed edge of the `children` graph: `b` occurs among the children
of the node registered under `a`. -/
def Edge (g : Graph α) (a b : String) : Prop := b ∈ childrenOf g a

instance (g : Graph α) (a b : String) : Decidable (Edge g a b) := by
  unfold Edge; infer_instance

/-- Nonempty directed path along `children` edges. -/
inductive PathNE (g : Graph α) : String → String → Prop
  | single {a b : String} : Edge g a b → PathNE g a b
  | cons {a b c : String} : Edge g a b → PathNE g b c → PathNE g a c

/-- The graph has a (nonempty) directed cycle. -/
def Cyclic (g : Graph α) : Prop := ∃ n, PathNE g n n

/-- Well-formedness maintained by the public API: distinct keys, each
node's `name` equals its key, and every child reference is registered. -/
def WF (g : Graph α) : Prop :=
  (keys g).Nodup ∧
    ∀ p ∈ g.nodes, p.2.name = p.1 ∧ ∀ c ∈ p.2.children, c ∈ keys g

instance (g : Graph α) : Decidable (WF g) := by
  unfold WF; infer_instance

/-- The `parents` slices agree (as multisets) with the `children` edges:
the multiplicity of `p` in `n`'s parents equals the multiplicity of `n`
in `p`'s children. -/
def Paired (g : Graph α) : Prop :=
  ∀ n p : String, (parentsOf g n).count p = (childrenOf g p).count n

/-- The graphs reachable through the public construction API. -/
inductive Built : Graph α → Prop
  | base : Built TaskGraph
  | add {g : Graph α} (n : String) (t : α) : Built g → Built (Add g n t)
  | prec {g : Graph α} (f t : String) : Built g → Built (Precede g f t).1
  | succ {g : Graph α} (f t : String) : Built g → Built (Succeed g f t).1

end Semantics

section DFSCorrectness

/-- Pointwise containment of boolean node sets. -/
def FSub (v w : String → Bool) : Prop := ∀ x, v x = true → w x = true

theorem FSub.rfl {v : String → Bool} : FSub v v := fun _ h => h

theorem FSub.trans {u v w : String → Bool} (h1 : FSub u v) (h2 : FSub v w) : FSub u w :=
  fun x hx => h2 x (h1 x hx)

/-- A node finished by the DFS: visited and no longer on the recursion
stack ("black" in the white/gray/black terminology of the spec). -/
def Black (vis stk : String → Bool) (x : String) : Prop :=
  vis x = true ∧ stk x = false

/-- Every child of a black node is black: finished nodes have no edge
back into the active recursion stack. -/
def BlackClosed (g : Graph α) (vis stk : String → Bool) : Prop :=
  ∀ x, Black vis stk x → ∀ c, Edge g x c → Black vis stk c

/-- No nonempty cycle starts at a black node. -/
def NoBlackCycle (g : Graph α) (vis stk : String → Bool) : Prop :=
  ∀ x, Black vis stk x → ¬ PathNE g x x

/-- The invariant threaded through the DFS: the stack is contained in the
visited set, black nodes are closed under edges, and no cycle starts at a
black node. -/
def GoodState (g : Graph α) (vis stk : String → Bool) : Prop :=
  FSub stk vis ∧ BlackClosed g vis stk ∧ NoBlackCycle g vis stk

theorem pathNE_snoc {g : Graph α} {a b c : String} (hp : PathNE g a b) (he : Edge g b c) :
    PathNE g a c := by
  induction hp with
  | single h => exact .cons h (.single he)
  | cons h _ ih => exact .cons h (ih he)

theorem black_of_pathNE {g : Graph α} {vis stk : String → Bool}
    (hbc : BlackClosed g vis stk) {a b : String} (ha : Black vis stk a)
    (hp : PathNE g a b) : Black vis stk b := by
  induction hp with
  | single h => exact hbc _ ha _ h
  | cons h _ ih => exact ih (hbc _ ha _ h)

theorem mem_keys_of_edge {g : Graph α} {a b : String} (h : Edge g a b) : a ∈ keys g := by
  unfold Edge childrenOf lookupNode at h
  cases hf : g.nodes.find? (fun p => p.1 == a) with
  | none => rw [hf] at h; simp at h
  | some e =>
    have hmem := List.mem_of_find?_eq_some hf
    have hk := List.find?_some hf
    have : e.1 = a := by simpa using hk
    exact this ▸ List.mem_map_of_mem Prod.fst hmem

/-- Monotonicity and stack restoration of the DFS: a call that returns
`false` only grows the visited set, marks its argument visited, and leaves
the recursion stack exactly as it found it. -/
theorem dfsRestore (g : Graph α) : ∀ fuel : Nat,
    (∀ n vis stk v s, FSub stk vis → vis n = false →
       dfsVisit g fuel n vis stk = some (false, v, s) →
       FSub vis v ∧ v n = true ∧ ∀ x, s x = stk x) ∧
    (∀ cs vis stk v s, FSub stk vis →
       dfsFold g fuel cs vis stk = some (false, v, s) →
       FSub vis v ∧ ∀ x, s x = stk x) := by
  intro fuel
  induction fuel with
  | zero =>
    constructor
    · intro n vis stk v s _ _ hres; simp [dfsVisit] at hres
    · intro cs vis stk v s hsub hres
      induction cs with
      | nil =>
        simp [dfsFold] at hres
        exact ⟨hres.1 ▸ FSub.rfl, fun x => by rw [hres.2]⟩
      | cons c cs ih =>
        rw [dfsFold] at hres
        by_cases hc : vis c = true
        · simp only [hc, if_true] at hres
          by_cases hs : stk c = true
          · simp [hs] at hres
          · simp only [Bool.not_eq_true] at hs
            simp only [hs, Bool.false_eq_true, if_false] at hres
            exact ih hres
        · simp only [Bool.not_eq_true] at hc
          simp [hc, dfsVisit] at hres
    | succ fuel ih =>
      obtain ⟨ihV, ihF⟩ := ih
      have hV : ∀ n vis stk v s, FSub stk vis → vis n = false →
          dfsVisit g (fuel + 1) n vis stk = some (false, v, s) →
          FSub vis v ∧ v n = true ∧ ∀ x, s x = stk x := by
        intro n vis stk v s hsub hn hres
        rw [dfsVisit] at hres
        simp only [hn, Bool.false_eq_true, if_false] at hres
        cases hf : dfsFold g fuel (childrenOf g n)
            (fun x => if x = n then true else vis x)
            (fun x => if x = n then true else stk x) with
        | none => rw [hf] at hres; simp at hres
        | some r =>
          obtain ⟨b, v0, s0⟩ := r
          rw [hf] at hres
          cases b with
          | true => simp at hres
          | false =>
            simp only [Option.some.injEq, Prod.mk.injEq] at hres
            obtain ⟨-, hv, hs⟩ := hres
            have hsub1 : FSub (fun x => if x = n then true else stk x)
                (fun x => if x = n then true else vis x) := by
              intro x hx
              by_cases hxn : x = n
              · simp [hxn]
              · simp only [hxn, if_false] at hx ⊢; exact hsub x hx
            obtain ⟨hmono, hrest⟩ := ihF _ _ _ _ _ hsub1 hf
            refine ⟨?_, ?_, ?_⟩
            · intro x hx
              subst hv
              apply hmono
              by_cases hxn : x = n
              · simp [hxn]
              · simp [hxn, hx]
            · subst hv; apply hmono; simp
            · intro x
              rw [← hs]
              by_cases hxn : x = n
              · subst hxn
                simp only [if_true]
                cases hsn : stk x with
                | false => rfl
                | true => simp [hsub x hsn] at hn
              · simp only [hxn, if_false]
                rw [hrest x]
                simp [hxn]
      refine ⟨hV, ?_⟩
      intro cs vis stk v s hsub hres
      induction cs generalizing vis stk with
      | nil =>
        simp [dfsFold] at hres
        exact ⟨hres.1 ▸ FSub.rfl, fun x => by rw [hres.2]⟩
      | cons c cs ih =>
        rw [dfsFold] at hres
        by_cases hc : vis c = true
        · simp only [hc, if_true] at hres
          by_cases hs : stk c = true
          · simp [hs] at hres
          · simp only [Bool.not_eq_true] at hs
            simp only [hs, Bool.false_eq_true, if_false] at hres
            exact ih _ _ hsub hres
        · simp only [Bool.not_eq_true] at hc
          simp only [hc, Bool.false_eq_true, if_false] at hres
          cases hv : dfsVisit g (fuel + 1) c vis stk with
          | none => rw [hv] at hres; simp at hres
          | some r =>
            obtain ⟨b, v1, s1⟩ := r
            rw [hv] at hres
            cases b with
            | true => simp at hres
            | false =>
              obtain ⟨hm1, -, hr1⟩ := hV _ _ _ _ _ hsub hc hv
              by_cases hs1c : s1 c = true
              · simp [hs1c] at hres
              · simp only [Bool.not_eq_true] at hs1c
                simp only [hs1c, Bool.false_eq_true, if_false] at hres
                have hsub1 : FSub s1 v1 := by
                  intro x hx
                  rw [hr1 x] at hx
                  exact hm1 x (hsub x hx)
                obtain ⟨hm2, hr2⟩ := ih _ _ hsub1 hres
                refine ⟨hm1.trans hm2, ?_⟩
                intro x; rw [hr2 x, hr1 x]

/-- Invariant preservation of the DFS: a call returning `false` preserves
`GoodState` and leaves the visited node (respectively all the traversed
children) black. -/
theorem dfsComplete (g : Graph α) : ∀ fuel : Nat,
    (∀ n vis stk v s, GoodState g vis stk → vis n = false →
       dfsVisit g fuel n vis stk = some (false, v, s) →
       GoodState g v s ∧ Black v s n) ∧
    (∀ cs vis stk v s, GoodState g vis stk →
       dfsFold g fuel cs vis stk = some (false, v, s) →
       GoodState g v s ∧ ∀ c ∈ cs, Black v s c) := by
  have markGood : ∀ vis stk n, GoodState g vis stk → vis n = false →
      GoodState g (fun x => if x = n then true else vis x)
        (fun x => if x = n then true else stk x) := by
    intro vis stk n ⟨h1, h2, h3⟩ hn
    have hBlack : ∀ x, Black (fun x => if x = n then true else vis x)
        (fun x => if x = n then true else stk x) x → x ≠ n ∧ Black vis stk x := by
      intro x ⟨hv, hs⟩
      by_cases hxn : x = n
      · simp [hxn] at hs
      · simp only [hxn, if_false] at hv hs
        exact ⟨hxn, hv, hs⟩
    refine ⟨?_, ?_, ?_⟩
    · intro x hx
      by_cases hxn : x = n
      · simp [hxn]
      · simp only [hxn, if_false] at hx ⊢; exact h1 x hx
    · intro x hx c hc
      obtain ⟨hxn, hbx⟩ := hBlack x hx
      have hbc := h2 x hbx c hc
      have hcn : c ≠ n := by
        intro h; rw [h] at hbc; rw [hbc.1] at hn; cases hn
      exact ⟨by simp [hcn, hbc.1], by simp [hcn, hbc.2]⟩
    · intro x hx hp
      exact h3 x (hBlack x hx).2 hp
  intro fuel
  induction fuel with
  | zero =>
    constructor
    · intro n vis stk v s _ _ hres; simp [dfsVisit] at hres
    · intro cs vis stk v s hgood hres
      induction cs with
      | nil =>
        simp [dfsFold] at hres
        obtain ⟨hv, hs⟩ := hres
        subst hv; subst hs
        exact ⟨hgood, by simp⟩
      | cons c cs ih =>
        rw [dfsFold] at hres
        by_cases hc : vis c = true
        · simp only [hc, if_true] at hres
          by_cases hs : stk c = true
          · simp [hs] at hres
          · simp only [Bool.not_eq_true] at hs
            simp only [hs, Bool.false_eq_true, if_false] at hres
            obtain ⟨hg, hrest⟩ := ih hres
            refine ⟨hg, ?_⟩
            intro c' hc'
            rcases List.mem_cons.mp hc' with h | h
            · subst h
              obtain ⟨hm, hr⟩ := ((dfsRestore g 0).2) _ _ _ _ _ hgood.1 hres
              exact ⟨hm c' hc, by rw [hr c']; exact hs⟩
            · exact hrest c' h
        · simp only [Bool.not_eq_true] at hc
          simp [hc, dfsVisit] at hres
  | succ fuel ih =>
    obtain ⟨-, ihF⟩ := ih
    have hV : ∀ n vis stk v s, GoodState g vis stk → vis n = false →
        dfsVisit g (fuel + 1) n vis stk = some (false, v, s) →
        GoodState g v s ∧ Black v s n := by
      intro n vis stk v s hgood hn hres
      rw [dfsVisit] at hres
      simp only [hn, Bool.false_eq_true, if_false] at hres
      cases hf : dfsFold g fuel (childrenOf g n)
          (fun x => if x = n then true else vis x)
          (fun x => if x = n then true else stk x) with
      | none => rw [hf] at hres; simp at hres
      | some r =>
        obtain ⟨b, v0, s0⟩ := r
        rw [hf] at hres
        cases b with
        | true => simp at hres
        | false =>
          simp only [Option.some.injEq, Prod.mk.injEq] at hres
          obtain ⟨-, hv, hs⟩ := hres
          have hgood1 := markGood vis stk n hgood hn
          obtain ⟨hg0, hblackcs⟩ := ihF _ _ _ _ _ hgood1 hf
          obtain ⟨hm0, hr0⟩ := (dfsRestore g fuel).2 _ _ _ _ _ hgood1.1 hf
          -- s0 coincides with the pushed stack; in particular s0 n = true
          have hs0n : s0 n = true := by rw [hr0 n]; simp
          have hvn : v0 n = true := by apply hm0; simp
          -- characterize blackness in the final state (v0, s0 with n popped)
          have hBlackFin : ∀ x, Black v0 (fun y => if y = n then false else s0 y) x →
              x = n ∨ Black v0 s0 x := by
            intro x ⟨hvx, hsx⟩
            by_cases hxn : x = n
            · exact Or.inl hxn
            · simp only [hxn, if_false] at hsx; exact Or.inr ⟨hvx, hsx⟩
          have hChildBlackFin : ∀ c, Edge g n c →
              Black v0 (fun y => if y = n then false else s0 y) c := by
            intro c hc
            have hb := hblackcs c hc
            have hcn : c ≠ n := by
              intro h; rw [h] at hb; rw [hb.2] at hs0n; cases hs0n
            exact ⟨hb.1, by simp [hcn, hb.2]⟩
          have hNoCycN : ¬ PathNE g n n := by
            intro hp
            have hb : Black v0 s0 n := by
              cases hp with
              | single he => exact hblackcs n he
              | cons he hp' =>
                exact black_of_pathNE hg0.2.1 (hblackcs _ he) hp'
            rw [hb.2] at hs0n; cases hs0n
          subst hv; subst hs
          refine ⟨⟨?_, ?_, ?_⟩, ?_⟩
          · intro x hx
            by_cases hxn : x = n
            · simp [hxn] at hx
            · simp only [hxn, if_false] at hx; exact hg0.1 x hx
          · intro x hx c hc
            rcases hBlackFin x hx with h | h
            · subst h; exact hChildBlackFin c hc
            · have hbc := hg0.2.1 x h c hc
              have hcn : c ≠ n := by
                intro he; rw [he] at hbc; rw [hbc.2] at hs0n; cases hs0n
              exact ⟨hbc.1, by simp [hcn, hbc.2]⟩
          · intro x hx hp
            rcases hBlackFin x hx with h | h
            · subst h; exact hNoCycN hp
            · exact hg0.2.2 x h hp
          · exact ⟨hvn, by simp⟩
    refine ⟨hV, ?_⟩
    intro cs vis stk v s hgood hres
    induction cs generalizing vis stk with
    | nil =>
      simp [dfsFold] at hres
      obtain ⟨hv, hs⟩ := hres
      subst hv; subst hs
      exact ⟨hgood, by simp⟩
    | cons c cs ih =>
      rw [dfsFold] at hres
      by_cases hc : vis c = true
      · simp only [hc, if_true] at hres
        by_cases hs : stk c = true
        · simp [hs] at hres
        · simp only [Bool.not_eq_true] at hs
          simp only [hs, Bool.false_eq_true, if_false] at hres
          obtain ⟨hg, hrest⟩ := ih _ _ hgood hres
          refine ⟨hg, ?_⟩
          intro c' hc'
          rcases List.mem_cons.mp hc' with h | h
          · subst h
            obtain ⟨hm, hr⟩ := (dfsRestore g (fuel + 1)).2 _ _ _ _ _ hgood.1 hres
            exact ⟨hm c' hc, by rw [hr c']; exact hs⟩
          · exact hrest c' h
      · simp only [Bool.not_eq_true] at hc
        simp only [hc, Bool.false_eq_true, if_false] at hres
        cases hv : dfsVisit g (fuel + 1) c vis stk with
        | none => rw [hv] at hres; simp at hres
        | some r =>
          obtain ⟨b, v1, s1⟩ := r
          rw [hv] at hres
          cases b with
          | true => simp at hres
          | false =>
            obtain ⟨hg1, hb1⟩ := hV _ _ _ _ _ hgood hc hv
            by_cases hs1c : s1 c = true
            · simp [hs1c] at hres
            · simp only [Bool.not_eq_true] at hs1c
              simp only [hs1c, Bool.false_eq_true, if_false] at hres
              obtain ⟨hg, hrest⟩ := ih _ _ hg1 hres
              refine ⟨hg, ?_⟩
              intro c' hc'
              rcases List.mem_cons.mp hc' with h | h
              · subst h
                obtain ⟨hm, hr⟩ := (dfsRestore g (fuel + 1)).2 _ _ _ _ _ hg1.1 hres
                exact ⟨hm c' hb1.1, by rw [hr c']; exact hb1.2⟩
              · exact hrest c' h

/-- Soundness of the DFS: a call that returns `true` has found a genuine
directed cycle.  The stack hypothesis records that every gray node has a
nonempty path to the node currently being visited. -/
theorem dfsSound (g : Graph α) : ∀ fuel : Nat,
    (∀ n vis stk v s, FSub stk vis →
       (∀ r, stk r = true → PathNE g r n) →
       dfsVisit g fuel n vis stk = some (true, v, s) → Cyclic g) ∧
    (∀ n' cs vis stk v s, FSub stk vis →
       (∀ c ∈ cs, Edge g n' c) →
       (∀ r, stk r = true → PathNE g r n' ∨ r = n') →
       dfsFold g fuel cs vis stk = some (true, v, s) → Cyclic g) := by
  intro fuel
  induction fuel with
  | zero =>
    constructor
    · intro n vis stk v s _ _ hres; simp [dfsVisit] at hres
    · intro n' cs vis stk v s hsub hedges hstk hres
      induction cs with
      | nil => simp [dfsFold] at hres
      | cons c cs ih =>
        rw [dfsFold] at hres
        by_cases hc : vis c = true
        · simp only [hc, if_true] at hres
          by_cases hs : stk c = true
          · -- back edge found: gray child closes a cycle
            rcases hstk c hs with hp | he
            · exact ⟨c, pathNE_snoc hp (hedges c (by simp))⟩
            · subst he; exact ⟨c, .single (hedges c (by simp))⟩
          · simp only [Bool.not_eq_true] at hs
            simp only [hs, Bool.false_eq_true, if_false] at hres
            exact ih (fun c' hc' => hedges c' (by simp [hc'])) hres
        · simp only [Bool.not_eq_true] at hc
          simp [hc, dfsVisit] at hres
  | succ fuel ih =>
    obtain ⟨-, ihF⟩ := ih
    have hV : ∀ n vis stk v s, FSub stk vis →
        (∀ r, stk r = true → PathNE g r n) →
        dfsVisit g (fuel + 1) n vis stk = some (true, v, s) → Cyclic g := by
      intro n vis stk v s hsub hstk hres
      rw [dfsVisit] at hres
      by_cases hn : vis n = true
      · simp [hn] at hres
      · simp only [Bool.not_eq_true] at hn
        simp only [hn, Bool.false_eq_true, if_false] at hres
        cases hf : dfsFold g fuel (childrenOf g n)
            (fun x => if x = n then true else vis x)
            (fun x => if x = n then true else stk x) with
        | none => rw [hf] at hres; simp at hres
        | some r =>
          obtain ⟨b, v0, s0⟩ := r
          rw [hf] at hres
          cases b with
          | false => simp at hres
          | true =>
            have hsub1 : FSub (fun x => if x = n then true else stk x)
                (fun x => if x = n then true else vis x) := by
              intro x hx
              by_cases hxn : x = n
              · simp [hxn]
              · simp only [hxn, if_false] at hx ⊢; exact hsub x hx
            refine ihF n _ _ _ _ _ hsub1 (fun c hc => hc) ?_ hf
            intro r hr
            by_cases hrn : r = n
            · exact Or.inr hrn
            · simp only [hrn, if_false] at hr
              exact Or.inl (hstk r hr)
    refine ⟨hV, ?_⟩
    intro n' cs vis stk v s hsub hedges hstk hres
    induction cs generalizing vis stk with
    | nil => simp [dfsFold] at hres
    | cons c cs ih =>
      rw [dfsFold] at hres
      have hedge : Edge g n' c := hedges c (by simp)
      by_cases hc : vis c = true
      · simp only [hc, if_true] at hres
        by_cases hs : stk c = true
        · rcases hstk c hs with hp | he
          · exact ⟨c, pathNE_snoc hp hedge⟩
          · subst he; exact ⟨c, .single hedge⟩
        · simp only [Bool.not_eq_true] at hs
          simp only [hs, Bool.false_eq_true, if_false] at hres
          exact ih _ _ hsub (fun c' hc' => hedges c' (by simp [hc'])) hstk hres
      · simp only [Bool.not_eq_true] at hc
        simp only [hc, Bool.false_eq_true, if_false] at hres
        have hstkc : ∀ r, stk r = true → PathNE g r c := by
          intro r hr
          rcases hstk r hr with hp | he
          · exact pathNE_snoc hp hedge
          · subst he; exact .single hedge
        cases hv : dfsVisit g (fuel + 1) c vis stk with
        | none => rw [hv] at hres; simp at hres
        | some r =>
          obtain ⟨b, v1, s1⟩ := r
          rw [hv] at hres
          cases b with
          | true => exact hV _ _ _ _ _ hsub hstkc hv
          | false =>
            obtain ⟨hm1, -, hr1⟩ := (dfsRestore g (fuel + 1)).1 _ _ _ _ _ hsub hc hv
            by_cases hs1c : s1 c = true
            · rw [hr1 c] at hs1c
              rw [hsub c hs1c] at hc; cases hc
            · simp only [Bool.not_eq_true] at hs1c
              simp only [hs1c, Bool.false_eq_true, if_false] at hres
              have hsub1 : FSub s1 v1 := by
                intro x hx
                rw [hr1 x] at hx
                exact hm1 x (hsub x hx)
              refine ih _ _ hsub1 (fun c' hc' => hedges c' (by simp [hc'])) ?_ hres
              intro r hr
              rw [hr1 r] at hr
              exact hstk r hr

/-- The number of registered nodes not yet visited: the measure showing
that the fuel `hasCycle` passes to the DFS is sufficient. -/
def unvisitedCount (g : Graph α) (vis : String → Bool) : Nat :=
  ((keys g).filter (fun x => ! vis x)).length

theorem unvisitedCount_mono {g : Graph α} {vis v : String → Bool} (h : FSub vis v) :
    unvisitedCount g v ≤ unvisitedCount g vis := by
  apply List.Sublist.length_le
  apply List.monotone_filter_right
  intro a ha
  simp only [Bool.not_eq_true']  at ha ⊢
  cases hva : vis a with
  | false => rfl
  | true => rw [h a hva] at ha; cases ha

theorem filter_mark_length_lt (n : String) (vis : String → Bool) :
    ∀ l : List String, n ∈ l → vis n = false →
    (l.filter (fun x => ! (if x = n then true else vis x))).length <
      (l.filter (fun x => ! vis x)).length := by
  intro l
  induction l with
  | nil => intro hn; cases hn
  | cons a l ih =>
    intro hn hv
    by_cases han : a = n
    · subst han
      have h1 : (fun x => ! (if x = a then true else vis x)) a = false := by simp
      have h2 : (fun x => ! vis x) a = true := by simp [hv]
      rw [List.filter_cons_of_neg (by simp), List.filter_cons_of_pos (by simp [hv])]
      have hle : (l.filter (fun x => ! (if x = a then true else vis x))).length ≤
          (l.filter (fun x => ! vis x)).length := by
        apply List.Sublist.length_le
        apply List.monotone_filter_right
        intro b hb
        simp only [Bool.not_eq_true'] at hb ⊢
        by_cases hba : b = a
        · simp [hba] at hb
        · simpa [hba] using hb
      simp only [List.length_cons]
      omega
    · have hn' : n ∈ l := by
        rcases List.mem_cons.mp hn with h | h
        · exact absurd h.symm han
        · exact h
      by_cases ha : vis a = true
      · rw [List.filter_cons_of_neg (by simp [han, ha]),
          List.filter_cons_of_neg (by simp [ha])]
        exact ih hn' hv
      · simp only [Bool.not_eq_true] at ha
        rw [List.filter_cons_of_pos (by simp [han, ha]),
          List.filter_cons_of_pos (by simp [ha])]
        simpa using ih hn' hv

theorem unvisitedCount_mark_lt {g : Graph α} {vis : String → Bool} {n : String}
    (hn : n ∈ keys g) (hv : vis n = false) :
    unvisitedCount g (fun x => if x = n then true else vis x) < unvisitedCount g vis :=
  filter_mark_length_lt n vis (keys g) hn hv

theorem children_mem_keys {g : Graph α} (hwf : WF g) {n c : String}
    (hc : c ∈ childrenOf g n) : c ∈ keys g := by
  unfold childrenOf lookupNode at hc
  cases hf : g.nodes.find? (fun p => p.1 == n) with
  | none => rw [hf] at hc; simp at hc
  | some e =>
    rw [hf] at hc
    simp at hc
    exact (hwf.2 e (List.mem_of_find?_eq_some hf)).2 c hc

/-- Fuel sufficiency: with more fuel than there are unvisited registered
nodes, the DFS never runs out. -/
theorem dfsFuel (g : Graph α) (hwf : WF g) : ∀ fuel : Nat,
    (∀ n vis stk, FSub stk vis → n ∈ keys g → unvisitedCount g vis < fuel →
       (dfsVisit g fuel n vis stk).isSome) ∧
    (∀ cs vis stk, FSub stk vis → (∀ c ∈ cs, c ∈ keys g) →
       unvisitedCount g vis < fuel → (dfsFold g fuel cs vis stk).isSome) := by
  intro fuel
  induction fuel with
  | zero =>
    constructor
    · intro n vis stk _ _ hlt; exact absurd hlt (Nat.not_lt_zero _)
    · intro cs vis stk _ _ hlt; exact absurd hlt (Nat.not_lt_zero _)
  | succ fuel ih =>
    obtain ⟨-, ihF⟩ := ih
    have hV : ∀ n vis stk, FSub stk vis → n ∈ keys g →
        unvisitedCount g vis < fuel + 1 → (dfsVisit g (fuel + 1) n vis stk).isSome := by
      intro n vis stk hsub hn hlt
      rw [dfsVisit]
      by_cases hvn : vis n = true
      · simp [hvn]
      · simp only [Bool.not_eq_true] at hvn
        simp only [hvn, Bool.false_eq_true, if_false]
        have hlt1 : unvisitedCount g (fun x => if x = n then true else vis x) < fuel := by
          have := unvisitedCount_mark_lt hn hvn
          omega
        have hsub1 : FSub (fun x => if x = n then true else stk x)
            (fun x => if x = n then true else vis x) := by
          intro x hx
          by_cases hxn : x = n
          · simp [hxn]
          · simp only [hxn, if_false] at hx ⊢; exact hsub x hx
        have hfold := ihF (childrenOf g n) _ _ hsub1
          (fun c hc => children_mem_keys hwf hc) hlt1
        cases hf : dfsFold g fuel (childrenOf g n)
            (fun x => if x = n then true else vis x)
            (fun x => if x = n then true else stk x) with
        | none => rw [hf] at hfold; cases hfold
        | some r =>
          obtain ⟨b, v0, s0⟩ := r
          cases b <;> simp
    refine ⟨hV, ?_⟩
    intro cs vis stk hsub hcs hlt
    induction cs generalizing vis stk with
    | nil => simp [dfsFold]
    | cons c cs ih =>
      rw [dfsFold]
      by_cases hc : vis c = true
      · simp only [hc, if_true]
        by_cases hs : stk c = true
        · simp [hs]
        · simp only [Bool.not_eq_true] at hs
          simp only [hs, Bool.false_eq_true, if_false]
          exact ih _ _ hsub (fun c' hc' => hcs c' (by simp [hc'])) hlt
      · simp only [Bool.not_eq_true] at hc
        simp only [hc, Bool.false_eq_true, if_false]
        have hv := hV c vis stk hsub (hcs c (by simp)) hlt
        cases hvis : dfsVisit g (fuel + 1) c vis stk with
        | none => rw [hvis] at hv; cases hv
        | some r =>
          obtain ⟨b, v1, s1⟩ := r
          cases b with
          | true => simp
          | false =>
            obtain ⟨hm1, -, hr1⟩ := (dfsRestore g (fuel + 1)).1 _ _ _ _ _ hsub hc hvis
            by_cases hs1c : s1 c = true
            · simp [hs1c]
            · simp only [Bool.not_eq_true] at hs1c
              simp only [hs1c, Bool.false_eq_true, if_false]
              have hsub1 : FSub s1 v1 := by
                intro x hx
                rw [hr1 x] at hx
                exact hm1 x (hsub x hx)
              refine ih _ _ hsub1 (fun c' hc' => hcs c' (by simp [hc'])) ?_
              calc unvisitedCount g v1 ≤ unvisitedCount g vis := unvisitedCount_mono hm1
                _ < fuel + 1 := hlt

theorem loopSound (g : Graph α) : ∀ es vis stk, (∀ x, stk x = false) →
    hasCycleLoop g es vis stk = some true → Cyclic g := by
  intro es
  induction es with
  | nil => intro vis stk _ hres; simp [hasCycleLoop] at hres
  | cons e es ih =>
    intro vis stk hstk hres
    rw [hasCycleLoop] at hres
    have hsub : FSub stk vis := by intro x hx; rw [hstk x] at hx; cases hx
    by_cases hv : vis e.1 = true
    · simp only [hv, if_true] at hres
      exact ih _ _ hstk hres
    · simp only [Bool.not_eq_true] at hv
      simp only [hv, Bool.false_eq_true, if_false] at hres
      cases hd : dfsVisit g (g.nodes.length + 1) e.1 vis stk with
      | none => rw [hd] at hres; simp at hres
      | some r =>
        obtain ⟨b, v1, s1⟩ := r
        rw [hd] at hres
        cases b with
        | true =>
          refine (dfsSound g (g.nodes.length + 1)).1 _ _ _ _ _ hsub ?_ hd
          intro r hr; rw [hstk r] at hr; cases hr
        | false =>
          obtain ⟨-, -, hr1⟩ := (dfsRestore g (g.nodes.length + 1)).1 _ _ _ _ _ hsub hv hd
          exact ih _ _ (fun x => by rw [hr1 x]; exact hstk x) hres

theorem loopComplete (g : Graph α) : ∀ es vis stk, (∀ x, stk x = false) →
    GoodState g vis stk → hasCycleLoop g es vis stk = some false →
    ∃ v s, (∀ x, s x = false) ∧ GoodState g v s ∧ FSub vis v ∧
      ∀ e ∈ es, v e.1 = true := by
  intro es
  induction es with
  | nil =>
    intro vis stk hstk hgood _
    exact ⟨vis, stk, hstk, hgood, FSub.rfl, by simp⟩
  | cons e es ih =>
    intro vis stk hstk hgood hres
    rw [hasCycleLoop] at hres
    by_cases hv : vis e.1 = true
    · simp only [hv, if_true] at hres
      obtain ⟨v, s, hs, hg, hsub, hmem⟩ := ih _ _ hstk hgood hres
      refine ⟨v, s, hs, hg, hsub, ?_⟩
      intro e' he'
      rcases List.mem_cons.mp he' with h | h
      · subst h; exact hsub _ hv
      · exact hmem e' h
    · simp only [Bool.not_eq_true] at hv
      simp only [hv, Bool.false_eq_true, if_false] at hres
      cases hd : dfsVisit g (g.nodes.length + 1) e.1 vis stk with
      | none => rw [hd] at hres; simp at hres
      | some r =>
        obtain ⟨b, v1, s1⟩ := r
        rw [hd] at hres
        cases b with
        | true => simp at hres
        | false =>
          obtain ⟨hg1, hb1⟩ := (dfsComplete g (g.nodes.length + 1)).1 _ _ _ _ _ hgood hv hd
          obtain ⟨hm1, -, hr1⟩ := (dfsRestore g (g.nodes.length + 1)).1 _ _ _ _ _ hgood.1 hv hd
          have hs1 : ∀ x, s1 x = false := fun x => by rw [hr1 x]; exact hstk x
          obtain ⟨v, s, hs, hg, hsub, hmem⟩ := ih _ _ hs1 hg1 hres
          refine ⟨v, s, hs, hg, hm1.trans hsub, ?_⟩
          intro e' he'
          rcases List.mem_cons.mp he' with h | h
          · subst h; exact hsub _ hb1.1
          · exact hmem e' h

theorem loopIsSome (g : Graph α) (hwf : WF g) : ∀ es vis stk, FSub stk vis →
    (∀ e ∈ es, e.1 ∈ keys g) → (hasCycleLoop g es vis stk).isSome := by
  intro es
  induction es with
  | nil => intro vis stk _ _; simp [hasCycleLoop]
  | cons e es ih =>
    intro vis stk hsub hes
    rw [hasCycleLoop]
    by_cases hv : vis e.1 = true
    · simp only [hv, if_true]
      exact ih _ _ hsub (fun e' he' => hes e' (by simp [he']))
    · simp only [Bool.not_eq_true] at hv
      simp only [hv, Bool.false_eq_true, if_false]
      have hcnt : unvisitedCount g vis < g.nodes.length + 1 := by
        have h1 : unvisitedCount g vis ≤ (keys g).length :=
          List.Sublist.length_le (List.filter_sublist _)
        have h2 : (keys g).length = g.nodes.length := List.length_map _ _
        omega
      have hv1 := (dfsFuel g hwf (g.nodes.length + 1)).1 e.1 vis stk hsub
        (hes e (by simp)) hcnt
      cases hd : dfsVisit g (g.nodes.length + 1) e.1 vis stk with
      | none => rw [hd] at hv1; cases hv1
      | some r =>
        obtain ⟨b, v1, s1⟩ := r
        cases b with
        | true => simp
        | false =>
          obtain ⟨hm1, -, hr1⟩ := (dfsRestore g (g.nodes.length + 1)).1 _ _ _ _ _ hsub hv hd
          have hsub1 : FSub s1 v1 := by
            intro x hx
            rw [hr1 x] at hx
            exact hm1 x (hsub x hx)
          exact ih _ _ hsub1 (fun e' he' => hes e' (by simp [he']))

/-- If `hasCycle` answers `true`, the `children` graph really has a
directed cycle (no well-formedness needed). -/
theorem cyclic_of_hasCycle {g : Graph α} (h : hasCycle g = true) : Cyclic g := by
  unfold hasCycle at h
  cases hl : hasCycleLoop g g.nodes (fun _ => false) (fun _ => false) with
  | none => rw [hl] at h; simp at h
  | some b =>
    rw [hl] at h
    simp at h
    subst h
    exact loopSound g _ _ _ (fun _ => rfl) hl

theorem pathNE_start_mem_keys {g : Graph α} {n m : String} (hp : PathNE g n m) :
    n ∈ keys g := by
  cases hp with
  | single he => exact mem_keys_of_edge he
  | cons he _ => exact mem_keys_of_edge he

/-- If `hasCycle` answers `false` on a well-formed graph, the `children`
graph is acyclic. -/
theorem acyclic_of_not_hasCycle {g : Graph α} (hwf : WF g) (h : hasCycle g = false) :
    ¬ Cyclic g := by
  unfold hasCycle at h
  cases hl : hasCycleLoop g g.nodes (fun _ => false) (fun _ => false) with
  | none =>
    have := loopIsSome g hwf g.nodes (fun _ => false) (fun _ => false)
      (fun x hx => by cases hx)
      (fun e he => List.mem_map_of_mem Prod.fst he)
    rw [hl] at this; cases this
  | some b =>
    rw [hl] at h
    simp at h
    subst h
    have hgood : GoodState g (fun _ => false) (fun _ => false) := by
      refine ⟨fun x hx => hx, ?_, ?_⟩
      · intro x hx; exact absurd hx.1 (by simp)
      · intro x hx; exact absurd hx.1 (by simp)
    obtain ⟨v, s, hs, hg, -, hmem⟩ := loopComplete g g.nodes _ _ (fun _ => rfl) hgood hl
    rintro ⟨n, hp⟩
    have hn : n ∈ keys g := pathNE_start_mem_keys hp
    obtain ⟨e, he, hek⟩ : ∃ e ∈ g.nodes, e.1 = n := by
      obtain ⟨e, he, hek⟩ := List.mem_map.mp hn
      exact ⟨e, he, hek⟩
    have hb : Black v s n := ⟨hek ▸ hmem e he, hs n⟩
    exact hg.2.2 n hb hp

/-- `hasCycle` decides the existence of a directed cycle on well-formed
graphs. -/
theorem hasCycle_iff_cyclic {g : Graph α} (hwf : WF g) : hasCycle g = true ↔ Cyclic g := by
  constructor
  · exact cyclic_of_hasCycle
  · intro hcyc
    cases h : hasCycle g with
    | true => rfl
    | false => exact absurd hcyc (acyclic_of_not_hasCycle hwf h)

end DFSCorrectness

section GraphOps

/-- Inserting and immediately rolling back an edge restores the graph
exactly: Go's `append` followed by `slice[:len-1]` on both sides. -/
theorem rollbackEdge_addEdge (g : Graph α) (f t : String) :
    rollbackEdge (addEdge g f t) f t = g := by
  obtain ⟨ns, sn⟩ := g
  simp only [rollbackEdge, addEdge, updNode, List.map_map]
  congr 1
  conv_rhs => rw [← List.map_id ns]
  apply List.map_congr_left
  intro p _
  obtain ⟨k, nd⟩ := p
  by_cases hf : k = f <;> by_cases ht : k = t
  · have hft : f = t := hf.symm.trans ht
    simp [hf, ht, hft, Function.comp]
  · have hft : ¬ (f = t) := fun h => ht (hf.trans h)
    simp [hf, ht, hft, Function.comp]
  · have hft : ¬ (t = f) := fun h => hf (ht.trans h)
    simp [hf, ht, hft, Function.comp]
  · simp [hf, ht, Function.comp]

theorem lookupNode_eq_none_iff {g : Graph α} {k : String} :
    lookupNode g k = none ↔ k ∉ keys g := by
  unfold lookupNode keys
  rw [Option.map_eq_none', List.find?_eq_none]
  constructor
  · intro h hk
    obtain ⟨p, hp, hpk⟩ := List.mem_map.mp hk
    exact absurd (by simpa using hpk) (by simpa using h p hp)
  · intro h p hp
    simp only [beq_iff_eq]
    intro hpk
    exact h (hpk ▸ List.mem_map_of_mem Prod.fst hp)

theorem lookupNode_isSome_iff {g : Graph α} {k : String} :
    (lookupNode g k).isSome = true ↔ k ∈ keys g := by
  constructor
  · intro h
    cases hl : lookupNode g k with
    | none => rw [hl] at h; cases h
    | some nd =>
      unfold lookupNode at hl
      cases hf : g.nodes.find? (fun p => p.1 == k) with
      | none => rw [hf] at hl; cases hl
      | some e =>
        have hk : e.1 = k := by simpa using List.find?_some hf
        exact hk ▸ List.mem_map_of_mem Prod.fst (List.mem_of_find?_eq_some hf)
  · intro h
    cases hl : lookupNode g k with
    | some nd => rfl
    | none => exact absurd h (lookupNode_eq_none_iff.mp hl)

theorem find?_updNode (ns : List (String × Node α)) (k : String)
    (fN : Node α → Node α) (k' : String) :
    (updNode ns k fN).find? (fun p => p.1 == k') =
      (ns.find? (fun p => p.1 == k')).map
        (fun p => if p.1 = k then (p.1, fN p.2) else p) := by
  induction ns with
  | nil => simp [updNode]
  | cons p ps ih =>
    simp only [updNode, List.map_cons]
    have hkey : (if p.1 = k then (p.1, fN p.2) else p).1 = p.1 := by
      split <;> rfl
    by_cases hp : p.1 = k'
    · rw [List.find?_cons_of_pos _ (by simp only [hkey]; simp [hp]),
        List.find?_cons_of_pos _ (by simp [hp])]
      simp
    · rw [List.find?_cons_of_neg _ (by simp only [hkey]; simp [hp]),
        List.find?_cons_of_neg _ (by simp [hp])]
      simpa [updNode] using ih

/-- Lookup after a keyed update: the keyed entry is transformed, all other
lookups are untouched. -/
theorem lookupNode_updNode (ns : List (String × Node α)) (sn : List String)
    (k : String) (fN : Node α → Node α) (k' : String) :
    lookupNode ⟨updNode ns k fN, sn⟩ k' =
      if k' = k then (lookupNode ⟨ns, sn⟩ k').map fN else lookupNode ⟨ns, sn⟩ k' := by
  unfold lookupNode
  show ((updNode ns k fN).find? (fun p => p.1 == k')).map (fun p => p.2) = _
  rw [find?_updNode]
  cases hf : ns.find? (fun p => p.1 == k') with
  | none => simp
  | some e =>
    have he : e.1 = k' := by simpa using List.find?_some hf
    by_cases hk : k' = k
    · subst hk; simp [he]
    · simp [he, hk]

theorem keys_updNode (ns : List (String × Node α)) (sn : List String)
    (k : String) (fN : Node α → Node α) :
    keys (⟨updNode ns k fN, sn⟩ : Graph α) = ns.map Prod.fst := by
  unfold keys updNode
  rw [List.map_map]
  apply List.map_congr_left
  intro p _
  show (if p.1 = k then (p.1, fN p.2) else p).1 = p.1
  split <;> rfl

theorem keys_addEdge (g : Graph α) (f t : String) : keys (addEdge g f t) = keys g := by
  obtain ⟨ns, sn⟩ := g
  show keys (⟨updNode (updNode ns f _) t _, sn⟩ : Graph α) = _
  rw [keys_updNode]
  have := keys_updNode ns sn f
    (fun nd => { nd with children := nd.children ++ [t] })
  unfold keys at this ⊢
  rw [this]

theorem childrenOf_addEdge {g : Graph α} {f : String} (hf : (lookupNode g f).isSome)
    (t x : String) :
    childrenOf (addEdge g f t) x =
      if x = f then childrenOf g x ++ [t] else childrenOf g x := by
  obtain ⟨ns, sn⟩ := g
  unfold childrenOf
  have h2 := lookupNode_updNode
    (updNode ns f (fun nd => { nd with children := nd.children ++ [t] })) sn
    t (fun nd => { nd with parents := nd.parents ++ [f] }) x
  have h1 := lookupNode_updNode ns sn
    f (fun nd => { nd with children := nd.children ++ [t] }) x
  show (match lookupNode (addEdge ⟨ns, sn⟩ f t) x with
    | some nd => nd.children | none => []) = _
  have haddn : lookupNode (addEdge ⟨ns, sn⟩ f t) x =
      ((lookupNode ⟨ns, sn⟩ x).map
          (fun nd => if x = f then { nd with children := nd.children ++ [t] } else nd)).map
        (fun nd => if x = t then { nd with parents := nd.parents ++ [f] } else nd) := by
    show lookupNode ⟨updNode (updNode ns f _) t _, sn⟩ x = _
    rw [h2, h1]
    by_cases hxf : x = f <;> by_cases hxt : x = t <;>
      cases hl : lookupNode ⟨ns, sn⟩ x <;> simp [hxf, hxt, apply_ite]
  rw [haddn]
  cases hl : lookupNode (⟨ns, sn⟩ : Graph α) x with
  | none =>
    have hx : x ≠ f := by
      intro h
      rw [h] at hl
      rw [hl] at hf
      cases hf
    simp [hx]
  | some nd =>
    by_cases hxf : x = f <;> by_cases hxt : x = t <;> simp [hxf, hxt] <;>
      (try (split <;> rfl))

theorem parentsOf_addEdge {g : Graph α} {t : String} (ht : (lookupNode g t).isSome)
    (f x : String) :
    parentsOf (addEdge g f t) x =
      if x = t then parentsOf g x ++ [f] else parentsOf g x := by
  obtain ⟨ns, sn⟩ := g
  unfold parentsOf
  have h2 := lookupNode_updNode
    (updNode ns f (fun nd => { nd with children := nd.children ++ [t] })) sn
    t (fun nd => { nd with parents := nd.parents ++ [f] }) x
  have h1 := lookupNode_updNode ns sn
    f (fun nd => { nd with children := nd.children ++ [t] }) x
  have haddn : lookupNode (addEdge ⟨ns, sn⟩ f t) x =
      ((lookupNode ⟨ns, sn⟩ x).map
          (fun nd => if x = f then { nd with children := nd.children ++ [t] } else nd)).map
        (fun nd => if x = t then { nd with parents := nd.parents ++ [f] } else nd) := by
    show lookupNode ⟨updNode (updNode ns f _) t _, sn⟩ x = _
    rw [h2, h1]
    by_cases hxf : x = f <;> by_cases hxt : x = t <;>
      cases hl : lookupNode ⟨ns, sn⟩ x <;> simp [hxf, hxt, apply_ite]
  rw [haddn]
  cases hl : lookupNode (⟨ns, sn⟩ : Graph α) x with
  | none =>
    have hx : x ≠ t := by
      intro h
      rw [h] at hl
      rw [hl] at ht
      cases ht
    simp [hx]
  | some nd =>
    by_cases hxf : x = f <;> by_cases hxt : x = t <;> simp [hxf, hxt] <;>
      (try (split <;> rfl))

theorem lookupNode_add_of_isSome {g : Graph α} {n : String} (t : α)
    (h : (lookupNode g n).isSome) : Add g n t = g := by
  unfold Add
  simp [h]

theorem childrenOf_add (g : Graph α) (n : String) (t : α) (x : String) :
    childrenOf (Add g n t) x = childrenOf g x := by
  unfold Add
  by_cases h : (lookupNode g n).isSome
  · simp [h]
  · simp only [h, Bool.false_eq_true, if_false]
    unfold childrenOf lookupNode
    obtain ⟨ns, sn⟩ := g
    rw [List.find?_append]
    cases hfind : List.find? (fun p => p.1 == x) ns with
    | some p => simp
    | none =>
      simp only [Option.none_or]
      by_cases hxn : x = n
      · subst hxn
        have : lookupNode (⟨ns, sn⟩ : Graph α) x = none := by
          unfold lookupNode; rw [hfind]; rfl
        simp [this, childrenOf]
      · have hne : ¬ n = x := fun he => hxn he.symm
        have hb : (n == x) = false := by simp [hne]
        simp [List.find?, hb, hfind]

theorem parentsOf_add (g : Graph α) (n : String) (t : α) (x : String) :
    parentsOf (Add g n t) x = parentsOf g x := by
  unfold Add
  by_cases h : (lookupNode g n).isSome
  · simp [h]
  · simp only [h, Bool.false_eq_true, if_false]
    unfold parentsOf lookupNode
    obtain ⟨ns, sn⟩ := g
    rw [List.find?_append]
    cases hfind : List.find? (fun p => p.1 == x) ns with
    | some p => simp
    | none =>
      simp only [Option.none_or]
      by_cases hxn : x = n
      · subst hxn
        have : lookupNode (⟨ns, sn⟩ : Graph α) x = none := by
          unfold lookupNode; rw [hfind]; rfl
        simp [this, parentsOf]
      · have hne : ¬ n = x := fun he => hxn he.symm
        have hb : (n == x) = false := by simp [hne]
        simp [List.find?, hb, hfind]

theorem pathNE_congr {g g' : Graph α}
    (h : ∀ a b, Edge g a b → Edge g' a b) {a b : String} :
    PathNE g a b → PathNE g' a b := by
  intro hp
  induction hp with
  | single he => exact .single (h _ _ he)
  | cons he _ ih => exact .cons (h _ _ he) ih

theorem cyclic_congr {g g' : Graph α}
    (h : ∀ a b, Edge g a b ↔ Edge g' a b) : Cyclic g ↔ Cyclic g' := by
  constructor
  · rintro ⟨n, hp⟩; exact ⟨n, pathNE_congr (fun a b => (h a b).mp) hp⟩
  · rintro ⟨n, hp⟩; exact ⟨n, pathNE_congr (fun a b => (h a b).mpr) hp⟩

theorem count_append_singleton (l : List String) (a b : String) :
    (l ++ [b]).count a = l.count a + (if a = b then 1 else 0) := by
  rw [List.count_append]
  by_cases h : a = b
  · subst h; simp
  · have hb : (b == a) = false := by
      simp only [beq_eq_false_iff_ne, ne_eq]
      exact fun he => h he.symm
    simp [List.count_cons, hb, h]

theorem WF_taskGraph : WF (TaskGraph : Graph α) := by
  constructor
  · simp [keys, TaskGraph]
  · intro p hp; simp [TaskGraph] at hp

theorem childrenOf_taskGraph (x : String) : childrenOf (TaskGraph : Graph α) x = [] := rfl

theorem parentsOf_taskGraph (x : String) : parentsOf (TaskGraph : Graph α) x = [] := rfl

theorem Paired_taskGraph : Paired (TaskGraph : Graph α) := by
  intro n p
  rw [childrenOf_taskGraph, parentsOf_taskGraph]
  simp

theorem not_cyclic_taskGraph : ¬ Cyclic (TaskGraph : Graph α) := by
  rintro ⟨n, hp⟩
  cases hp with
  | single he => rw [Edge, childrenOf_taskGraph] at he; cases he
  | cons he _ => rw [Edge, childrenOf_taskGraph] at he; cases he

theorem WF_add {g : Graph α} (hwf : WF g) (n : String) (t : α) : WF (Add g n t) := by
  by_cases h : (lookupNode g n).isSome
  · rw [lookupNode_add_of_isSome t h]; exact hwf
  · have hn : n ∉ keys g := by
      rw [← lookupNode_isSome_iff]
      simpa using h
    unfold Add
    simp only [h, Bool.false_eq_true, if_false]
    constructor
    · show (List.map Prod.fst (g.nodes ++ [(n, _)])).Nodup
      rw [List.map_append]
      rw [List.nodup_append]
      refine ⟨hwf.1, by simp, ?_⟩
      intro a ha hb
      simp only [List.map_cons, List.map_nil, List.mem_singleton] at hb
      subst hb
      exact hn ha
    · intro p hp
      rcases List.mem_append.mp hp with hmem | hmem
      · obtain ⟨hname, hch⟩ := hwf.2 p hmem
        refine ⟨hname, ?_⟩
        intro c hc
        show c ∈ List.map Prod.fst (g.nodes ++ [(n, _)])
        rw [List.map_append]
        exact List.mem_append_left _ (hch c hc)
      · simp only [List.mem_singleton] at hmem
        subst hmem
        exact ⟨rfl, by intro c hc; cases hc⟩

theorem Paired_add {g : Graph α} (hp : Paired g) (n : String) (t : α) :
    Paired (Add g n t) := by
  intro x p
  rw [parentsOf_add, childrenOf_add]
  exact hp x p

theorem not_cyclic_add {g : Graph α} (h : ¬ Cyclic g) (n : String) (t : α) :
    ¬ Cyclic (Add g n t) := by
  intro hc
  apply h
  have hiff : ∀ a b, Edge g a b ↔ Edge (Add g n t) a b := by
    intro a b
    unfold Edge
    rw [childrenOf_add]
  exact (cyclic_congr hiff).mpr hc

theorem WF_addEdge {g : Graph α} (hwf : WF g) {f t : String} (ht : t ∈ keys g) :
    WF (addEdge g f t) := by
  constructor
  · rw [keys_addEdge]; exact hwf.1
  · intro p hp
    have hkeys : keys (addEdge g f t) = keys g := keys_addEdge g f t
    obtain ⟨ns, sn⟩ := g
    simp only [addEdge, updNode] at hp
    obtain ⟨q1, hq1, hq1e⟩ := List.mem_map.mp hp
    obtain ⟨q, hq, hqe⟩ := List.mem_map.mp hq1
    obtain ⟨hname, hch⟩ := hwf.2 q hq
    have hq1ch : q1.2.children = q.2.children ∨ q1.2.children = q.2.children ++ [t] := by
      rw [← hqe]; split
      · right; rfl
      · left; rfl
    have hq1nm : q1.2.name = q.2.name ∧ q1.1 = q.1 := by
      rw [← hqe]; split
      · exact ⟨rfl, rfl⟩
      · exact ⟨rfl, rfl⟩
    have hpch : p.2.children = q1.2.children := by
      rw [← hq1e]; split <;> rfl
    have hpnm : p.2.name = q1.2.name ∧ p.1 = q1.1 := by
      rw [← hq1e]; split
      · exact ⟨rfl, rfl⟩
      · exact ⟨rfl, rfl⟩
    constructor
    · rw [hpnm.1, hpnm.2, hq1nm.1, hq1nm.2, hname]
    · intro c hc
      rw [hkeys]
      rw [hpch] at hc
      rcases hq1ch with h | h
      · rw [h] at hc
        exact hch c hc
      · rw [h] at hc
        rcases List.mem_append.mp hc with hmem | hmem
        · exact hch c hmem
        · simp only [List.mem_singleton] at hmem
          subst hmem
          exact ht

theorem Paired_addEdge {g : Graph α} (hp : Paired g) {f t : String}
    (hf : (lookupNode g f).isSome) (ht : (lookupNode g t).isSome) :
    Paired (addEdge g f t) := by
  intro x q
  rw [parentsOf_addEdge ht, childrenOf_addEdge hf]
  by_cases hxt : x = t <;> by_cases hqf : q = f
  · subst hxt; subst hqf
    simp only [if_true]
    rw [count_append_singleton, count_append_singleton]
    simp [hp x q]
  · subst hxt
    simp only [if_true, hqf, if_false]
    rw [count_append_singleton]
    simp [hqf, hp x q]
  · subst hqf
    simp only [hxt, if_false, if_true]
    rw [count_append_singleton]
    simp [hxt, hp x q]
  · simp only [hxt, hqf, if_false]
    exact hp x q

/-- The graph component of any `Precede` call preserves well-formedness,
parent/child pairing and acyclicity. -/
theorem precede_preserves {g : Graph α} (h : WF g ∧ Paired g ∧ ¬ Cyclic g)
    (f t : String) :
    WF (Precede g f t).1 ∧ Paired (Precede g f t).1 ∧ ¬ Cyclic (Precede g f t).1 := by
  obtain ⟨hwf, hpair, hacyc⟩ := h
  unfold Precede
  by_cases hreg : ((lookupNode g f).isSome && (lookupNode g t).isSome) = true
  · obtain ⟨hf, ht⟩ := Bool.and_eq_true_iff.mp hreg
    simp only [hreg, if_true]
    by_cases hcyc : hasCycle (addEdge g f t) = true
    · simp only [hcyc, if_true]
      rw [rollbackEdge_addEdge]
      exact ⟨hwf, hpair, hacyc⟩
    · simp only [hcyc, if_false]
      have hwf' : WF (addEdge g f t) :=
        WF_addEdge hwf (lookupNode_isSome_iff.mp ht)
      refine ⟨hwf', Paired_addEdge hpair hf ht, ?_⟩
      exact acyclic_of_not_hasCycle hwf' (by simpa using hcyc)
  · simp only [hreg, Bool.false_eq_true, if_false]
    exact ⟨hwf, hpair, hacyc⟩

/-- Master invariant of the public construction API: every built graph is
well-formed, has `parents` paired with `children`, and is acyclic. -/
theorem built_inv {g : Graph α} (h : Built g) : WF g ∧ Paired g ∧ ¬ Cyclic g := by
  induction h with
  | base => exact ⟨WF_taskGraph, Paired_taskGraph, not_cyclic_taskGraph⟩
  | add n t _ ih => exact ⟨WF_add ih.1 n t, Paired_add ih.2.1 n t, not_cyclic_add ih.2.2 n t⟩
  | prec f t _ ih => exact precede_preserves ih f t
  | succ f t _ ih => exact precede_preserves ih t f

end GraphOps

section ExecutorConstruction

/-- `find?` by key commutes with any key-preserving entry transformation. -/
theorem find?_map_keyed (h : String × Node α → String × Node α)
    (hk : ∀ p, (h p).1 = p.1) (ns : List (String × Node α)) (k : String) :
    (ns.map h).find? (fun p => p.1 == k) = (ns.find? (fun p => p.1 == k)).map h := by
  induction ns with
  | nil => simp
  | cons p ps ih =>
    by_cases hp : p.1 = k
    · rw [List.map_cons, List.find?_cons_of_pos _ (by simp [hk, hp]),
        List.find?_cons_of_pos _ (by simp [hp])]
      simp
    · rw [List.map_cons, List.find?_cons_of_neg _ (by simp [hk, hp]),
        List.find?_cons_of_neg _ (by simp [hp])]
      exact ih

theorem lookupNode_resetParents (g : Graph α) (x : String) :
    lookupNode (resetParents g) x =
      (lookupNode g x).map
        (fun nd => if 0 < incomingCount g x then { nd with parents := [] } else nd) := by
  unfold resetParents lookupNode
  rw [find?_map_keyed _ (fun p => by dsimp; split <;> rfl)]
  cases hf : g.nodes.find? (fun p => p.1 == x) with
  | none => simp
  | some e =>
    have he : e.1 = x := by simpa using List.find?_some hf
    simp only [he, Option.map_some]
    by_cases h : 0 < incomingCount g x <;> simp [h, apply_ite] <;>
      (intro h2; rw [he] at h2; omega)

theorem childrenOf_resetParents (g : Graph α) (x : String) :
    childrenOf (resetParents g) x = childrenOf g x := by
  unfold childrenOf
  rw [lookupNode_resetParents]
  cases lookupNode g x with
  | none => rfl
  | some nd => by_cases h : 0 < incomingCount g x <;> simp [h]

theorem taskOf_resetParents (g : Graph α) (x : String) :
    taskOf (resetParents g) x = taskOf g x := by
  unfold taskOf
  rw [lookupNode_resetParents]
  cases lookupNode g x with
  | none => rfl
  | some nd => by_cases h : 0 < incomingCount g x <;> simp [h]

theorem parentsOf_resetParents (g : Graph α) (x : String) :
    parentsOf (resetParents g) x =
      if 0 < incomingCount g x then
        (if (lookupNode g x).isSome then [] else parentsOf g x)
      else parentsOf g x := by
  unfold parentsOf
  rw [lookupNode_resetParents]
  cases hl : lookupNode g x with
  | none => simp
  | some nd =>
    by_cases h : 0 < incomingCount g x <;> simp [h]

theorem keys_resetParents (g : Graph α) : keys (resetParents g) = keys g := by
  unfold keys resetParents
  rw [List.map_map]
  apply List.map_congr_left
  intro p _
  dsimp
  split <;> rfl

theorem incomingCount_resetParents (g : Graph α) (x : String) :
    incomingCount (resetParents g) x = incomingCount g x := by
  unfold incomingCount resetParents
  rw [List.map_map]
  congr 1
  apply List.map_congr_left
  intro p _
  dsimp
  split <;> rfl

theorem flatMap_edges_map (h : String × Node α → String × Node α)
    (hk : ∀ p, (h p).1 = p.1 ∧ (h p).2.children = p.2.children)
    (ns : List (String × Node α)) :
    (ns.map h).flatMap (fun e => e.2.children.map (fun c => (e.1, c))) =
      ns.flatMap (fun e => e.2.children.map (fun c => (e.1, c))) := by
  induction ns with
  | nil => rfl
  | cons p ps ih =>
    rw [List.map_cons, List.flatMap_cons, List.flatMap_cons, ih, (hk p).1, (hk p).2]

theorem edgeList_resetParents (g : Graph α) : edgeList (resetParents g) = edgeList g := by
  unfold edgeList resetParents
  exact flatMap_edges_map _ (fun p => by dsimp; constructor <;> (split <;> rfl)) _

theorem parentsOf_updAppend (ns : List (String × Node α)) (sn : List String)
    (k a : String) (hk : k ∈ ns.map Prod.fst) (x : String) :
    parentsOf (⟨updNode ns k (fun nd => { nd with parents := nd.parents ++ [a] }), sn⟩ :
        Graph α) x =
      if x = k then parentsOf (⟨ns, sn⟩ : Graph α) x ++ [a]
      else parentsOf (⟨ns, sn⟩ : Graph α) x := by
  unfold parentsOf
  rw [lookupNode_updNode]
  by_cases hx : x = k
  · subst hx
    simp only [if_pos rfl]
    cases hl : lookupNode (⟨ns, sn⟩ : Graph α) x with
    | none =>
      have hsome : (lookupNode (⟨ns, sn⟩ : Graph α) x).isSome = true :=
        lookupNode_isSome_iff.mpr (show x ∈ keys (⟨ns, sn⟩ : Graph α) from hk)
      rw [hl] at hsome; cases hsome
    | some nd => simp
  · simp [hx]

theorem childrenOf_updParents (ns : List (String × Node α)) (sn : List String)
    (k a x : String) :
    childrenOf (⟨updNode ns k (fun nd => { nd with parents := nd.parents ++ [a] }), sn⟩ :
        Graph α) x = childrenOf (⟨ns, sn⟩ : Graph α) x := by
  unfold childrenOf
  rw [lookupNode_updNode]
  by_cases hx : x = k
  · subst hx
    simp only [if_pos rfl]
    cases lookupNode (⟨ns, sn⟩ : Graph α) x with
    | none => rfl
    | some nd => simp
  · simp [hx]

theorem taskOf_updParents (ns : List (String × Node α)) (sn : List String)
    (k a x : String) :
    taskOf (⟨updNode ns k (fun nd => { nd with parents := nd.parents ++ [a] }), sn⟩ :
        Graph α) x = taskOf (⟨ns, sn⟩ : Graph α) x := by
  unfold taskOf
  rw [lookupNode_updNode]
  by_cases hx : x = k
  · subst hx
    simp only [if_pos rfl]
    cases lookupNode (⟨ns, sn⟩ : Graph α) x with
    | none => rfl
    | some nd => simp
  · simp [hx]

theorem map_fst_updNode (ns : List (String × Node α)) (k : String)
    (fN : Node α → Node α) : (updNode ns k fN).map Prod.fst = ns.map Prod.fst := by
  unfold updNode
  rw [List.map_map]
  apply List.map_congr_left
  intro p _
  show (if p.1 = k then (p.1, fN p.2) else p).1 = p.1
  split <;> rfl

theorem keys_fillFold : ∀ (E : List (String × String)) (ns : List (String × Node α)),
    (E.foldl (fun ns pc => updNode ns pc.2
        (fun nd => { nd with parents := nd.parents ++ [pc.1] })) ns).map Prod.fst =
      ns.map Prod.fst := by
  intro E
  induction E with
  | nil => intro ns; rfl
  | cons pc E ih =>
    intro ns
    rw [List.foldl_cons, ih, map_fst_updNode]

theorem parentsOf_fillFold (sn : List String) :
    ∀ (E : List (String × String)) (ns : List (String × Node α)),
    (∀ pc ∈ E, pc.2 ∈ ns.map Prod.fst) → ∀ x,
    parentsOf (⟨E.foldl (fun ns pc => updNode ns pc.2
        (fun nd => { nd with parents := nd.parents ++ [pc.1] })) ns, sn⟩ : Graph α) x =
      parentsOf (⟨ns, sn⟩ : Graph α) x ++
        ((E.filter (fun pc => pc.2 = x)).map Prod.fst) := by
  intro E
  induction E with
  | nil => intro ns _ x; simp
  | cons pc E ih =>
    intro ns hE x
    rw [List.foldl_cons]
    have hE' : ∀ qc ∈ E, qc.2 ∈ (updNode ns pc.2
        (fun nd => { nd with parents := nd.parents ++ [pc.1] })).map Prod.fst := by
      intro qc hqc
      rw [map_fst_updNode]
      exact hE qc (by simp [hqc])
    rw [ih _ hE' x, parentsOf_updAppend ns sn pc.2 pc.1 (hE pc (by simp)) x]
    rw [List.filter_cons]
    by_cases hx : pc.2 = x
    · have hx' : x = pc.2 := hx.symm
      rw [if_pos (show (decide (pc.2 = x)) = true by simp [hx]), if_pos hx',
        List.map_cons, List.append_assoc]
      rfl
    · have hx' : ¬ (x = pc.2) := fun h => hx h.symm
      rw [if_neg (show ¬ ((decide (pc.2 = x)) = true) by simp [hx]), if_neg hx']

theorem childrenOf_fillFold (sn : List String) :
    ∀ (E : List (String × String)) (ns : List (String × Node α)) (x : String),
    childrenOf (⟨E.foldl (fun ns pc => updNode ns pc.2
        (fun nd => { nd with parents := nd.parents ++ [pc.1] })) ns, sn⟩ : Graph α) x =
      childrenOf (⟨ns, sn⟩ : Graph α) x := by
  intro E
  induction E with
  | nil => intro ns x; rfl
  | cons pc E ih =>
    intro ns x
    rw [List.foldl_cons, ih, childrenOf_updParents]

theorem taskOf_fillFold (sn : List String) :
    ∀ (E : List (String × String)) (ns : List (String × Node α)) (x : String),
    taskOf (⟨E.foldl (fun ns pc => updNode ns pc.2
        (fun nd => { nd with parents := nd.parents ++ [pc.1] })) ns, sn⟩ : Graph α) x =
      taskOf (⟨ns, sn⟩ : Graph α) x := by
  intro E
  induction E with
  | nil => intro ns x; rfl
  | cons pc E ih =>
    intro ns x
    rw [List.foldl_cons, ih, taskOf_updParents]

theorem map_fst_filter_pair (a x : String) (l : List String) :
    ((l.map (fun c => (a, c))).filter (fun pc => pc.2 = x)).map Prod.fst =
      List.replicate (l.count x) a := by
  induction l with
  | nil => rfl
  | cons c l ih =>
    rw [List.map_cons]
    by_cases h : c = x
    · subst h
      rw [List.filter_cons_of_pos (by simp), List.map_cons, ih, List.count_cons_self,
        List.replicate_succ]
    · rw [List.filter_cons_of_neg (by simp [h]), ih,
        List.count_cons_of_ne (fun he => h he.symm)]

theorem length_filter_pair (a x : String) (l : List String) :
    ((l.map (fun c => (a, c))).filter (fun pc => pc.2 = x)).length = l.count x := by
  have h := congrArg List.length (map_fst_filter_pair a x l)
  rw [List.length_map, List.length_replicate] at h
  exact h

theorem count_fst_filter_pair (a p x : String) (l : List String) :
    ((((l.map (fun c => (a, c))).filter (fun pc => pc.2 = x)).map Prod.fst).count p) =
      if a = p then l.count x else 0 := by
  rw [map_fst_filter_pair, List.count_replicate]
  by_cases hap : a = p
  · have hb : (p == a) = true := by simp [hap]
    simp [hap, hb]
  · have hb : (p == a) = false := by
      simp only [beq_eq_false_iff_ne, ne_eq]
      exact fun he => hap he.symm
    simp [hap, hb]

theorem length_filter_edgeList (g : Graph α) (x : String) :
    ((edgeList g).filter (fun pc => pc.2 = x)).length = incomingCount g x := by
  unfold edgeList incomingCount
  generalize g.nodes = ns
  induction ns with
  | nil => rfl
  | cons e ns ih =>
    rw [List.flatMap_cons, List.filter_append, List.length_append, ih, List.map_cons,
      List.sum_cons, length_filter_pair]

theorem count_fst_filter_edges (sn : List String) : ∀ (ns : List (String × Node α)),
    (ns.map Prod.fst).Nodup → ∀ p x,
    (((ns.flatMap (fun e => e.2.children.map (fun c => (e.1, c)))).filter
        (fun pc => pc.2 = x)).map Prod.fst).count p =
      (childrenOf (⟨ns, sn⟩ : Graph α) p).count x := by
  intro ns
  induction ns with
  | nil => intro _ p x; simp [childrenOf, lookupNode]
  | cons e ns ih =>
    intro hnd p x
    rw [List.flatMap_cons, List.filter_append, List.map_append, List.count_append]
    have hnd' : (ns.map Prod.fst).Nodup := by
      rw [List.map_cons] at hnd
      exact hnd.of_cons
    by_cases hep : e.1 = p
    · have h1 : ((((e.2.children.map (fun c => (e.1, c))).filter
          (fun pc => pc.2 = x)).map Prod.fst).count p) = e.2.children.count x := by
        rw [count_fst_filter_pair]
        simp [hep]
      have hp : p ∉ ns.map Prod.fst := by
        rw [List.map_cons] at hnd
        rw [← hep]
        exact (List.nodup_cons.mp hnd).1
      have h2 : ((((ns.flatMap (fun e => e.2.children.map (fun c => (e.1, c)))).filter
          (fun pc => pc.2 = x)).map Prod.fst).count p) = 0 := by
        rw [List.count_eq_zero]
        intro hmem
        obtain ⟨pc, hpc, hfst⟩ := List.mem_map.mp hmem
        have hpc2 := List.mem_of_mem_filter hpc
        obtain ⟨ent, hent, hin⟩ := List.mem_flatMap.mp hpc2
        obtain ⟨c, -, hc⟩ := List.mem_map.mp hin
        apply hp
        rw [← hfst, ← hc]
        exact List.mem_map_of_mem Prod.fst hent
      have h3 : childrenOf (⟨e :: ns, sn⟩ : Graph α) p = e.2.children := by
        unfold childrenOf lookupNode
        rw [List.find?_cons_of_pos _ (by simp [hep])]
        rfl
      rw [h1, h2, h3]
      omega
    · have h1 : ((((e.2.children.map (fun c => (e.1, c))).filter
          (fun pc => pc.2 = x)).map Prod.fst).count p) = 0 := by
        rw [count_fst_filter_pair]
        simp [hep]
      have h3 : childrenOf (⟨e :: ns, sn⟩ : Graph α) p =
          childrenOf (⟨ns, sn⟩ : Graph α) p := by
        unfold childrenOf lookupNode
        rw [List.find?_cons_of_neg _ (by simp [hep])]
      rw [h1, h3, ih hnd' p x, Nat.zero_add]
      try rfl

/-- Entry skeleta (key, name, children) survive `resetParents` and the
parents-filling fold of `NewExecutor`. -/
theorem skeleton_updNode (ns : List (String × Node α)) (k : String)
    (f : Node α → Node α)
    (hf : ∀ nd, (f nd).name = nd.name ∧ (f nd).children = nd.children) :
    ∀ p ∈ updNode ns k f, ∃ q ∈ ns,
      p.1 = q.1 ∧ p.2.name = q.2.name ∧ p.2.children = q.2.children := by
  intro p hp
  obtain ⟨q, hq, hqe⟩ := List.mem_map.mp hp
  refine ⟨q, hq, ?_⟩
  rw [← hqe]
  split
  · exact ⟨rfl, (hf q.2).1, (hf q.2).2⟩
  · exact ⟨rfl, rfl, rfl⟩

theorem skeleton_fillFold : ∀ (E : List (String × String)) (ns : List (String × Node α)),
    ∀ p ∈ E.foldl (fun ns pc => updNode ns pc.2
        (fun nd => { nd with parents := nd.parents ++ [pc.1] })) ns,
      ∃ q ∈ ns, p.1 = q.1 ∧ p.2.name = q.2.name ∧ p.2.children = q.2.children := by
  intro E
  induction E with
  | nil => intro ns p hp; exact ⟨p, hp, rfl, rfl, rfl⟩
  | cons pc E ih =>
    intro ns p hp
    rw [List.foldl_cons] at hp
    obtain ⟨q, hq, h1, h2, h3⟩ := ih _ p hp
    obtain ⟨r, hr, h4, h5, h6⟩ := skeleton_updNode ns pc.2
      (fun nd => { nd with parents := nd.parents ++ [pc.1] }) (fun nd => ⟨rfl, rfl⟩) q hq
    exact ⟨r, hr, h1.trans h4, h2.trans h5, h3.trans h6⟩

theorem skeleton_resetParents (g : Graph α) :
    ∀ p ∈ (resetParents g).nodes, ∃ q ∈ g.nodes,
      p.1 = q.1 ∧ p.2.name = q.2.name ∧ p.2.children = q.2.children := by
  intro p hp
  obtain ⟨q, hq, hqe⟩ := List.mem_map.mp hp
  refine ⟨q, hq, ?_⟩
  rw [← hqe]
  split
  · exact ⟨rfl, rfl, rfl⟩
  · exact ⟨rfl, rfl, rfl⟩

/-- Observable specification of `NewExecutor`: `children` edges, tasks and
the key set are untouched; every node's `parents` list is recomputed from
the `children` edges — multiplicity of `p` among `n`'s parents equals the
multiplicity of `n` among `p`'s children, and its length is `n`'s total
in-degree.  The hypothesis `h0` (nodes with no incoming edge already carry
no parent data) holds for every graph built through the public API. -/
theorem NewExecutor_spec {g : Graph α} (hwf : WF g)
    (h0 : ∀ n ∈ keys g, incomingCount g n = 0 → parentsOf g n = []) :
    (∀ x, childrenOf (NewExecutor g) x = childrenOf g x) ∧
    (∀ x, taskOf (NewExecutor g) x = taskOf g x) ∧
    keys (NewExecutor g) = keys g ∧
    (∀ n p, (parentsOf (NewExecutor g) n).count p = (childrenOf g p).count n) ∧
    (∀ n, (parentsOf (NewExecutor g) n).length = incomingCount g n) := by
  have hNE : NewExecutor g =
      (⟨(edgeList (resetParents g)).foldl (fun ns pc => updNode ns pc.2
          (fun nd => { nd with parents := nd.parents ++ [pc.1] }))
          (resetParents g).nodes, (resetParents g).startNodes⟩ : Graph α) := rfl
  have hinit : ∀ n, parentsOf (resetParents g) n = [] := by
    intro n
    rw [parentsOf_resetParents]
    by_cases hin : 0 < incomingCount g n
    · simp only [hin, if_true]
      by_cases hs : (lookupNode g n).isSome
      · simp [hs]
      · simp only [hs, Bool.false_eq_true, if_false]
        unfold parentsOf
        cases hl : lookupNode g n with
        | none => rfl
        | some nd => rw [hl] at hs; exact absurd rfl hs
    · simp only [hin, if_false]
      by_cases hk : n ∈ keys g
      · exact h0 n hk (by omega)
      · unfold parentsOf
        rw [lookupNode_eq_none_iff.mpr hk]
  have hE : ∀ pc ∈ edgeList (resetParents g),
      pc.2 ∈ (resetParents g).nodes.map Prod.fst := by
    intro pc hpc
    obtain ⟨ent, hent, hin⟩ := List.mem_flatMap.mp hpc
    obtain ⟨c, hc, hce⟩ := List.mem_map.mp hin
    obtain ⟨q, hq, hk1, -, hch⟩ := skeleton_resetParents g ent hent
    have hcg : c ∈ keys g := (hwf.2 q hq).2 c (hch ▸ hc)
    have : pc.2 = c := by rw [← hce]
    rw [this]
    show c ∈ keys (resetParents g)
    rw [keys_resetParents]
    exact hcg
  have hpar : ∀ n, parentsOf (NewExecutor g) n =
      (((edgeList g).filter (fun pc => pc.2 = n)).map Prod.fst) := by
    intro n
    rw [hNE]
    rw [parentsOf_fillFold _ _ _ hE n]
    rw [hinit n]
    · rw [List.nil_append, edgeList_resetParents]
  refine ⟨?_, ?_, ?_, ?_, ?_⟩
  · intro x
    rw [hNE, childrenOf_fillFold]
    exact childrenOf_resetParents g x
  · intro x
    rw [hNE, taskOf_fillFold]
    exact taskOf_resetParents g x
  · rw [hNE]
    show ((edgeList (resetParents g)).foldl _ (resetParents g).nodes).map Prod.fst = keys g
    rw [keys_fillFold]
    exact keys_resetParents g
  · intro n p
    rw [hpar n]
    obtain ⟨ns, sn⟩ := g
    exact count_fst_filter_edges sn ns hwf.1 p n
  · intro n
    rw [hpar n, List.length_map]
    exact length_filter_edgeList g n

theorem WF_NewExecutor {g : Graph α} (hwf : WF g)
    (h0 : ∀ n ∈ keys g, incomingCount g n = 0 → parentsOf g n = []) :
    WF (NewExecutor g) := by
  obtain ⟨hch, htk, hkeys, hcnt, hlen⟩ := NewExecutor_spec hwf h0
  constructor
  · rw [hkeys]; exact hwf.1
  · intro p hp
    have hp' : p ∈ (edgeList (resetParents g)).foldl (fun ns pc => updNode ns pc.2
        (fun nd => { nd with parents := nd.parents ++ [pc.1] }))
        (resetParents g).nodes := hp
    obtain ⟨q, hq, h1, h2, h3⟩ := skeleton_fillFold _ _ p hp'
    obtain ⟨r, hr, h4, h5, h6⟩ := skeleton_resetParents g q hq
    obtain ⟨hname, hchr⟩ := hwf.2 r hr
    constructor
    · rw [h2, h5, hname, ← h4, ← h1]
    · intro c hc
      have : c ∈ keys g := hchr c ((h6 ▸ h3 ▸ hc))
      rw [show keys (NewExecutor g) = keys g from hkeys]
      exact this

end ExecutorConstruction

section RootPaths

/-- A dependency-complete path witnessing how a node can be reached: a
nonempty chain of `children` edges starting at a node with no incoming
edge and ending at `n`. -/
def RootPath (g : Graph α) (l : List String) (n : String) : Prop :=
  l ≠ [] ∧ List.Chain' (Edge g) l ∧
    (∃ r, l.head? = some r ∧ incomingCount g r = 0) ∧ l.getLast? = some n

end RootPaths

section Executor

variable {ε : Type}

/-- The wrapped error of `Execute`
(`fmt.Errorf("error executing node %s: %w", n.name, err)`): the failing
node's name together with the underlying cause. -/
structure TaskError (ε : Type) where
  nodeName : String
  cause : ε
deriving DecidableEq

/-- One in-flight run of `Execute`: the `inDegree` map, the nodes sent on
the `ready` channel whose task goroutine has not yet begun (`pending`),
the tasks currently executing (`running`), the finished tasks
(`succeeded` / `failed`) and the one-slot buffered `errors` channel
(`errSlot`). -/
structure ExecState (ε : Type) where
  indeg : String → Int
  pending : List String
  running : List String
  succeeded : List String
  failed : List String
  errSlot : Option (TaskError ε)

/-- The `for _, child := range n.children` loop of a successful task:
decrement each child's counter in slice order and enqueue a child the
moment its counter reaches zero. -/
def decChildren : (String → Int) → List String → (String → Int) × List String
  | d, [] => (d, [])
  | d, c :: cs =>
    let v := d c - 1
    let d1 : String → Int := fun x => if x = c then v else d x
    let r := decChildren d1 cs
    (r.1, (if v = 0 then [c] else []) ++ r.2)

/-- The state after `Execute`'s initialization loop: counters are
`len(node.parents)` and every zero-in-degree node has been sent on
`ready`. -/
def initState (g : Graph (Option ε)) : ExecState ε :=
  { indeg := fun n => ((parentsOf g n).length : Int)
    pending := (g.nodes.filter (fun p => p.2.parents.length = 0)).map Prod.fst
    running := []
    succeeded := []
    failed := []
    errSlot := none }

/-- Interleaving semantics of `Execute`.  Each constructor is one atomic
event: a node's goroutine begins running its task; a task returns `nil`
and performs its decrement loop (serialized, which is the synchronization
discipline the spec requires of this shared data); a task returns an error
and records it only if the one-slot channel is still free. -/
inductive ExecStep (g : Graph (Option ε)) : ExecState ε → ExecState ε → Prop
  | start (s : ExecState ε) (n : String) (h : n ∈ s.pending) :
      ExecStep g s { s with pending := s.pending.erase n, running := n :: s.running }
  | finishOk (s : ExecState ε) (n : String) (nd : Node (Option ε))
      (hr : n ∈ s.running) (hl : lookupNode g n = some nd) (ht : nd.task = none) :
      ExecStep g s { s with
        running := s.running.erase n
        succeeded := n :: s.succeeded
        indeg := (decChildren s.indeg nd.children).1
        pending := s.pending ++ (decChildren s.indeg nd.children).2 }
  | finishFail (s : ExecState ε) (n : String) (nd : Node (Option ε)) (c : ε)
      (hr : n ∈ s.running) (hl : lookupNode g n = some nd) (ht : nd.task = some c) :
      ExecStep g s { s with
        running := s.running.erase n
        failed := n :: s.failed
        errSlot := match s.errSlot with
          | some e => some e
          | none => some ⟨nd.name, c⟩ }

/-- The states one run of `Execute` can pass through. -/
def Reach (g : Graph (Option ε)) (s : ExecState ε) : Prop :=
  Relation.ReflTransGen (ExecStep g) (initState g) s

/-- All nodes that have ever been sent on the `ready` channel. -/
def dispatched (s : ExecState ε) : List String :=
  s.pending ++ s.running ++ s.succeeded ++ s.failed

/-- Nodes whose task invocation has begun. -/
def started (s : ExecState ε) : List String :=
  s.running ++ s.succeeded ++ s.failed

/-- `Execute` can return `r` : either the WaitGroup has hit zero (nothing
pending or running, the `finished` channel closes) and the select returns
`nil`, or the one-slot error channel holds the error.  Go's `select` picks
uniformly among ready cases, so whenever both channels are ready both
returns are possible. -/
def CanReturn (g : Graph (Option ε)) (r : Option (TaskError ε)) : Prop :=
  ∃ s, Reach g s ∧
    ((r = none ∧ s.pending = [] ∧ s.running = []) ∨
     (∃ e, r = some e ∧ s.errSlot = some e))

/-- The number of incoming edge occurrences of `n` from nodes that have
not yet completed successfully. -/
def pendIncoming (g : Graph (Option ε)) (s : ExecState ε) (n : String) : Nat :=
  ((g.nodes.filter (fun p => decide (p.1 ∉ s.succeeded))).map
    (fun p => p.2.children.count n)).sum

/-- The executor graphs: well-formed and with `parents` lengths agreeing
with the incoming edge count — exactly what `NewExecutor` establishes on
an API-built graph. -/
def ExecGraph (g : Graph (Option ε)) : Prop :=
  WF g ∧ ∀ n, (parentsOf g n).length = incomingCount g n

theorem decChildren_fst (cs : List String) : ∀ (d : String → Int),
    (∀ x, ((cs.count x : Int)) ≤ d x) →
    ∀ x, (decChildren d cs).1 x = d x - cs.count x := by
  induction cs with
  | nil => intro d _ x; simp [decChildren]
  | cons c cs ih =>
    intro d hd x
    have hd1 : ∀ y, ((cs.count y : Int)) ≤ (fun z => if z = c then d c - 1 else d z) y := by
      intro y
      by_cases hy : y = c
      · subst hy
        have := hd y
        rw [List.count_cons_self] at this
        simp only [if_pos rfl]
        push_cast at this ⊢
        omega
      · have := hd y
        rw [List.count_cons_of_ne (fun he => hy he)] at this
        simp only [hy, if_false]
        exact this
    show (decChildren _ cs).1 x = _
    rw [ih _ hd1 x]
    by_cases hx : x = c
    · subst hx
      rw [List.count_cons_self]
      simp only [if_pos rfl]
      push_cast
      omega
    · rw [List.count_cons_of_ne (fun he => hx he)]
      simp only [hx, if_false]

theorem decChildren_mem_snd (cs : List String) : ∀ (d : String → Int),
    (∀ x, ((cs.count x : Int)) ≤ d x) →
    ∀ x, (x ∈ (decChildren d cs).2 ↔ 0 < cs.count x ∧ d x = (cs.count x : Int)) := by
  induction cs with
  | nil => intro d _ x; simp [decChildren]
  | cons c cs ih =>
    intro d hd x
    have hd1 : ∀ y, ((cs.count y : Int)) ≤ (fun z => if z = c then d c - 1 else d z) y := by
      intro y
      by_cases hy : y = c
      · subst hy
        have := hd y
        rw [List.count_cons_self] at this
        simp only [if_pos rfl]
        push_cast at this ⊢
        omega
      · have := hd y
        rw [List.count_cons_of_ne (fun he => hy he)] at this
        simp only [hy, if_false]
        exact this
    show x ∈ (if d c - 1 = 0 then [c] else []) ++ (decChildren _ cs).2 ↔ _
    rw [List.mem_append, ih _ hd1 x]
    by_cases hx : x = c
    · subst hx
      rw [List.count_cons_self]
      have hcnt := hd x
      rw [List.count_cons_self] at hcnt
      have hle : (cs.count x : Int) ≤ d x - 1 := by simpa using hd1 x
      simp only [if_pos rfl]
      constructor
      · rintro (h | ⟨h1, h2⟩)
        · have hv : d x - 1 = 0 := by
            by_cases hv : d x - 1 = 0
            · exact hv
            · rw [if_neg hv] at h; cases h
          push_cast at hle ⊢
          omega
        · push_cast at h2 ⊢
          omega
      · rintro ⟨-, h2⟩
        by_cases hz : cs.count x = 0
        · left
          have hv : d x - 1 = 0 := by
            rw [hz] at h2
            push_cast at h2
            omega
          rw [if_pos hv]
          exact List.mem_singleton.mpr rfl
        · right
          refine ⟨by omega, ?_⟩
          push_cast at h2 ⊢
          omega
    · rw [List.count_cons_of_ne (fun he => hx he)]
      have hnotin : x ∉ (if d c - 1 = 0 then [c] else ([] : List String)) := by
        split
        · simp [hx]
        · simp
      simp only [hx, if_false]
      constructor
      · rintro (h | h)
        · exact absurd h hnotin
        · exact h
      · intro h
        exact Or.inr h

theorem decChildren_nodup_snd (cs : List String) : ∀ (d : String → Int),
    (∀ x, ((cs.count x : Int)) ≤ d x) → (decChildren d cs).2.Nodup := by
  induction cs with
  | nil => intro d _; simp [decChildren]
  | cons c cs ih =>
    intro d hd
    have hd1 : ∀ y, ((cs.count y : Int)) ≤ (fun z => if z = c then d c - 1 else d z) y := by
      intro y
      by_cases hy : y = c
      · subst hy
        have := hd y
        rw [List.count_cons_self] at this
        simp only [if_pos rfl]
        push_cast at this ⊢
        omega
      · have := hd y
        rw [List.count_cons_of_ne (fun he => hy he)] at this
        simp only [hy, if_false]
        exact this
    show ((if d c - 1 = 0 then [c] else []) ++ (decChildren _ cs).2).Nodup
    by_cases hv : d c - 1 = 0
    · rw [if_pos hv, List.singleton_append, List.nodup_cons]
      refine ⟨?_, ih _ hd1⟩
      intro hmem
      rw [decChildren_mem_snd cs _ hd1 c] at hmem
      obtain ⟨h1, h2⟩ := hmem
      have h2' : d c - 1 = (cs.count c : Int) := by simpa using h2
      omega
    · rw [if_neg hv, List.nil_append]
      exact ih _ hd1

theorem lookup_mem {g : Graph α} {n : String} {nd : Node α}
    (h : lookupNode g n = some nd) : (n, nd) ∈ g.nodes := by
  unfold lookupNode at h
  cases hf : g.nodes.find? (fun p => p.1 == n) with
  | none => rw [hf] at h; cases h
  | some e =>
    rw [hf] at h
    have he1 : e.1 = n := by simpa using List.find?_some hf
    have he2 : e.2 = nd := by simpa using h
    have : (n, nd) = e := by
      rw [← he1, ← he2]
    rw [this]
    exact List.mem_of_find?_eq_some hf

theorem lookup_of_mem_nodup {g : Graph α} (hnd : (keys g).Nodup) {e : String × Node α}
    (he : e ∈ g.nodes) : lookupNode g e.1 = some e.2 := by
  obtain ⟨ns, sn⟩ := g
  unfold lookupNode
  unfold keys at hnd
  induction ns with
  | nil => cases he
  | cons q ns ih =>
    rcases List.mem_cons.mp he with h | h
    · subst h
      rw [List.find?_cons_of_pos _ (by simp)]
      rfl
    · have hq : q.1 ≠ e.1 := by
        intro hqe
        rw [List.map_cons] at hnd
        exact (List.nodup_cons.mp hnd).1 (hqe ▸ List.mem_map_of_mem Prod.fst h)
      rw [List.find?_cons_of_neg _ (by simp [hq])]
      exact ih (by rw [List.map_cons] at hnd; exact hnd.of_cons) h

/-- The inductive invariant of one `Execute` run. -/
structure EInv (g : Graph (Option ε)) (s : ExecState ε) : Prop where
  nodup : (dispatched s).Nodup
  sub : ∀ n ∈ dispatched s, n ∈ keys g
  indeg_eq : ∀ n, s.indeg n = (pendIncoming g s n : Int)
  disp_iff : ∀ n ∈ keys g, (n ∈ dispatched s ↔ s.indeg n = 0)
  rootpath : ∀ n ∈ dispatched s, ∃ l, RootPath g l n ∧ ∀ x ∈ l.dropLast, x ∈ s.succeeded

theorem pendInc_eq_of_no_key (x : String) :
    ∀ (ns : List (String × Node (Option ε))) (succ : List String) (p : String),
    (∀ q ∈ ns, q.1 ≠ p) →
    ((ns.filter (fun q => decide (q.1 ∉ p :: succ))).map
      (fun q => q.2.children.count x)).sum =
    ((ns.filter (fun q => decide (q.1 ∉ succ))).map
      (fun q => q.2.children.count x)).sum := by
  intro ns
  induction ns with
  | nil => intro succ p _; rfl
  | cons q ns ih =>
    intro succ p hk
    have hq : q.1 ≠ p := hk q (by simp)
    have hiff : (q.1 ∉ p :: succ) ↔ (q.1 ∉ succ) := by
      simp [hq]
    by_cases hm : q.1 ∈ succ
    · rw [List.filter_cons_of_neg (by simp [hm]),
        List.filter_cons_of_neg (by simp [hm, hq])]
      exact ih succ p (fun r hr => hk r (by simp [hr]))
    · rw [List.filter_cons_of_pos (by simp [hm, hq]),
        List.filter_cons_of_pos (by simp [hm])]
      rw [List.map_cons, List.map_cons, List.sum_cons, List.sum_cons]
      rw [ih succ p (fun r hr => hk r (by simp [hr]))]

theorem pendInc_succ_step {g : Graph (Option ε)} (hnd : (keys g).Nodup)
    {n : String} {nd : Node (Option ε)} (hl : lookupNode g n = some nd)
    {succ : List String} (hns : n ∉ succ) (x : String) :
    ((g.nodes.filter (fun q => decide (q.1 ∉ n :: succ))).map
        (fun q => q.2.children.count x)).sum + nd.children.count x =
      ((g.nodes.filter (fun q => decide (q.1 ∉ succ))).map
        (fun q => q.2.children.count x)).sum := by
  have hmem : (n, nd) ∈ g.nodes := lookup_mem hl
  clear hl
  obtain ⟨ns, sn⟩ := g
  unfold keys at hnd
  induction ns with
  | nil => cases hmem
  | cons q ns ih =>
    have hnd' : (ns.map Prod.fst).Nodup := by
      rw [List.map_cons] at hnd; exact hnd.of_cons
    rcases List.mem_cons.mp hmem with h | h
    · -- the head is the completing node
      have hq1 : q.1 = n := by rw [← h]
      have hq2 : q.2 = nd := by rw [← h]
      have hknot : ∀ r ∈ ns, r.1 ≠ n := by
        intro r hr hrn
        rw [List.map_cons] at hnd
        exact (List.nodup_cons.mp hnd).1 (hq1 ▸ hrn ▸ List.mem_map_of_mem Prod.fst hr)
      rw [List.filter_cons_of_neg (by simp [hq1]),
        List.filter_cons_of_pos (by simp [hq1, hns])]
      rw [List.map_cons, List.sum_cons]
      rw [pendInc_eq_of_no_key x ns succ n hknot]
      rw [hq2]
      omega
    · -- the completing node sits in the tail
      have hq1 : q.1 ≠ n := by
        intro hqn
        rw [List.map_cons] at hnd
        exact (List.nodup_cons.mp hnd).1 (hqn ▸ List.mem_map_of_mem Prod.fst h)
      by_cases hm : q.1 ∈ succ
      · rw [List.filter_cons_of_neg (by simp [hm]),
          List.filter_cons_of_neg (by simp [hm, hq1])]
        exact ih hnd' h
      · rw [List.filter_cons_of_pos (by simp [hm, hq1]),
          List.filter_cons_of_pos (by simp [hm])]
        rw [List.map_cons, List.map_cons, List.sum_cons, List.sum_cons]
        have hrec := ih hnd' h
        dsimp only at hrec
        omega

theorem count_le_pendIncoming {g : Graph (Option ε)} {s : ExecState ε}
    {n : String} {nd : Node (Option ε)} (hl : lookupNode g n = some nd)
    (hns : n ∉ s.succeeded) (x : String) :
    nd.children.count x ≤ pendIncoming g s x := by
  have hmem : (n, nd) ∈ g.nodes := lookup_mem hl
  have hfil : (n, nd) ∈ g.nodes.filter (fun q => decide (q.1 ∉ s.succeeded)) := by
    rw [List.mem_filter]
    exact ⟨hmem, by simpa using hns⟩
  have hmm : nd.children.count x ∈
      ((g.nodes.filter (fun q => decide (q.1 ∉ s.succeeded))).map
        (fun q => q.2.children.count x)) := by
    exact List.mem_map_of_mem _ hfil
  exact List.single_le_sum (fun y _ => Nat.zero_le y) _ hmm

theorem mem_of_getLast? {l : List String} {b : String} (hb : l.getLast? = some b) :
    ∀ x ∈ l, x ∈ l.dropLast ∨ x = b := by
  induction l with
  | nil => intro x hx; cases hx
  | cons a l ih =>
    intro x hx
    cases l with
    | nil =>
      have hab : a = b := by simpa using hb
      have hxa : x = a := by simpa using hx
      exact Or.inr (hxa.trans hab)
    | cons c l' =>
      rw [List.getLast?_cons_cons] at hb
      rcases List.mem_cons.mp hx with h | h
      · left
        subst h
        simp
      · rcases ih hb x h with h' | h'
        · left
          rw [List.dropLast_cons₂]
          exact List.mem_cons_of_mem a h'
        · exact Or.inr h'

theorem einv_start {g : Graph (Option ε)} {s : ExecState ε} {n : String}
    (hinv : EInv g s) (h : n ∈ s.pending) :
    EInv g { s with
      pending := s.pending.erase n
      running := n :: s.running } := by
  have hcnt : 0 < s.pending.count n := List.count_pos_iff.mpr h
  have hperm : (dispatched { s with
      pending := s.pending.erase n
      running := n :: s.running }).Perm (dispatched s) := by
    rw [List.perm_iff_count]
    intro a
    simp only [dispatched, List.count_append, List.count_cons, List.count_erase]
    by_cases han : n = a
    · subst han
      simp only [beq_self_eq_true, if_true]
      omega
    · have hb : (n == a) = false := by
        simp only [beq_eq_false_iff_ne, ne_eq]
        exact han
      simp only [hb, Bool.false_eq_true, if_false]
      omega
  refine ⟨hperm.nodup_iff.mpr hinv.nodup, ?_, ?_, ?_, ?_⟩
  · intro m hm
    exact hinv.sub m (hperm.mem_iff.mp hm)
  · intro m
    exact hinv.indeg_eq m
  · intro m hm
    exact hperm.mem_iff.trans (hinv.disp_iff m hm)
  · intro m hm
    exact hinv.rootpath m (hperm.mem_iff.mp hm)

theorem einv_fail {g : Graph (Option ε)} {s : ExecState ε} {n : String}
    {nd : Node (Option ε)} {c : ε}
    (hinv : EInv g s) (hr : n ∈ s.running) :
    EInv g { s with
      running := s.running.erase n
      failed := n :: s.failed
      errSlot := match s.errSlot with
        | some e => some e
        | none => some ⟨nd.name, c⟩ } := by
  have hcnt : 0 < s.running.count n := List.count_pos_iff.mpr hr
  have hperm : (dispatched { s with
      running := s.running.erase n
      failed := n :: s.failed
      errSlot := match s.errSlot with
        | some e => some e
        | none => some ⟨nd.name, c⟩ }).Perm (dispatched s) := by
    rw [List.perm_iff_count]
    intro a
    simp only [dispatched, List.count_append, List.count_cons, List.count_erase]
    by_cases han : n = a
    · subst han
      simp only [beq_self_eq_true, if_true]
      omega
    · have hb : (n == a) = false := by
        simp only [beq_eq_false_iff_ne, ne_eq]
        exact han
      simp only [hb, Bool.false_eq_true, if_false]
      omega
  refine ⟨hperm.nodup_iff.mpr hinv.nodup, ?_, ?_, ?_, ?_⟩
  · intro m hm
    exact hinv.sub m (hperm.mem_iff.mp hm)
  · intro m
    exact hinv.indeg_eq m
  · intro m hm
    exact hperm.mem_iff.trans (hinv.disp_iff m hm)
  · intro m hm
    exact hinv.rootpath m (hperm.mem_iff.mp hm)

theorem childrenOf_eq_of_lookup {g : Graph α} {n : String} {nd : Node α}
    (hl : lookupNode g n = some nd) : childrenOf g n = nd.children := by
  unfold childrenOf
  rw [hl]

theorem einv_ok {g : Graph (Option ε)} (hg : ExecGraph g) {s : ExecState ε}
    {n : String} {nd : Node (Option ε)}
    (hinv : EInv g s) (hr : n ∈ s.running) (hl : lookupNode g n = some nd) :
    EInv g { s with
      running := s.running.erase n
      succeeded := n :: s.succeeded
      indeg := (decChildren s.indeg nd.children).1
      pending := s.pending ++ (decChildren s.indeg nd.children).2 } := by
  obtain ⟨hwf, hple⟩ := hg
  have hnds : n ∈ dispatched s := by
    unfold dispatched
    simp [hr]
  have hkeyn : n ∈ keys g := hinv.sub n hnds
  have hnsucc : n ∉ s.succeeded := by
    have h1 : ((s.pending ++ s.running) ++ s.succeeded).Nodup := by
      have hh := hinv.nodup
      unfold dispatched at hh
      exact hh.of_append_left
    have h2 := List.disjoint_of_nodup_append h1
    intro hmem
    exact h2 (List.mem_append_right _ hr) hmem
  have hd : ∀ x, ((nd.children.count x : Int)) ≤ s.indeg x := by
    intro x
    rw [hinv.indeg_eq x]
    exact_mod_cast count_le_pendIncoming hl hnsucc x
  have hD1 := decChildren_fst nd.children s.indeg hd
  have hD2 := decChildren_mem_snd nd.children s.indeg hd
  have hD3 := decChildren_nodup_snd nd.children s.indeg hd
  have hchn : childrenOf g n = nd.children := childrenOf_eq_of_lookup hl
  have hnewkeys : ∀ m ∈ (decChildren s.indeg nd.children).2, m ∈ keys g := by
    intro m hm
    obtain ⟨hpos, -⟩ := (hD2 m).mp hm
    exact children_mem_keys hwf (hchn ▸ List.count_pos_iff.mp hpos)
  have hnewfresh : ∀ m ∈ (decChildren s.indeg nd.children).2, m ∉ dispatched s := by
    intro m hm hds
    obtain ⟨hpos, heq⟩ := (hD2 m).mp hm
    have h0 : s.indeg m = 0 := (hinv.disp_iff m (hnewkeys m hm)).mp hds
    rw [h0] at heq
    omega
  have hcnt : 0 < s.running.count n := List.count_pos_iff.mpr hr
  have hperm : (dispatched { s with
      running := s.running.erase n
      succeeded := n :: s.succeeded
      indeg := (decChildren s.indeg nd.children).1
      pending := s.pending ++ (decChildren s.indeg nd.children).2 }).Perm
      ((decChildren s.indeg nd.children).2 ++ dispatched s) := by
    rw [List.perm_iff_count]
    intro a
    simp only [dispatched, List.count_append, List.count_cons, List.count_erase]
    by_cases han : n = a
    · subst han
      simp only [beq_self_eq_true, if_true]
      omega
    · have hb : (n == a) = false := by
        simp only [beq_eq_false_iff_ne, ne_eq]
        exact han
      simp only [hb, Bool.false_eq_true, if_false]
      omega
  refine ⟨?_, ?_, ?_, ?_, ?_⟩
  · apply hperm.nodup_iff.mpr
    exact List.Nodup.append hD3 hinv.nodup hnewfresh
  · intro m hm
    rcases List.mem_append.mp (hperm.mem_iff.mp hm) with h | h
    · exact hnewkeys m h
    · exact hinv.sub m h
  · intro x
    have h1 := hD1 x
    have h2 := hinv.indeg_eq x
    have h3 := pendInc_succ_step hwf.1 hl hnsucc x
    show (decChildren s.indeg nd.children).1 x = _
    unfold pendIncoming at h2 ⊢
    dsimp only
    omega
  · intro m hm
    rw [hperm.mem_iff, List.mem_append]
    show _ ↔ (decChildren s.indeg nd.children).1 m = 0
    rw [hD1 m]
    constructor
    · rintro (h | h)
      · obtain ⟨hpos, heq⟩ := (hD2 m).mp h
        omega
      · have h0 : s.indeg m = 0 := (hinv.disp_iff m hm).mp h
        have hc := hd m
        omega
    · intro h0
      by_cases hds : m ∈ dispatched s
      · exact Or.inr hds
      · left
        have hne : s.indeg m ≠ 0 := fun he => hds ((hinv.disp_iff m hm).mpr he)
        have hc := hd m
        rw [hD2 m]
        constructor
        · by_cases hz : nd.children.count m = 0
          · rw [hz] at h0
            simp at h0
            exact absurd h0 hne
          · omega
        · omega
  · intro m hm
    rcases List.mem_append.mp (hperm.mem_iff.mp hm) with h | h
    · -- a newly enqueued child: extend the parent path of `n`
      obtain ⟨l, ⟨hne, hch, hroot, hlast⟩, hsub⟩ := hinv.rootpath n hnds
      obtain ⟨hpos, -⟩ := (hD2 m).mp h
      have hedge : Edge g n m := by
        show m ∈ childrenOf g n
        rw [hchn]
        exact List.count_pos_iff.mp hpos
      refine ⟨l ++ [m], ⟨by simp, ?_, ?_, ?_⟩, ?_⟩
      · rw [List.chain'_append]
        refine ⟨hch, List.chain'_singleton m, ?_⟩
        intro x hx y hy
        rw [hlast] at hx
        have hx' : n = x := by simpa using hx
        have hy' : m = y := by simpa using hy
        rw [← hx', ← hy']
        exact hedge
      · obtain ⟨r, hr', hr0⟩ := hroot
        refine ⟨r, ?_, hr0⟩
        cases l with
        | nil => cases hne rfl
        | cons a l' => simpa using hr'
      · exact List.getLast?_concat l
      · rw [List.dropLast_concat]
        intro x hx
        rcases mem_of_getLast? hlast x hx with h' | h'
        · exact List.mem_cons_of_mem n (hsub x h')
        · rw [h']
          exact List.mem_cons_self n s.succeeded
    · obtain ⟨l, hrp, hsub⟩ := hinv.rootpath m h
      exact ⟨l, hrp, fun x hx => List.mem_cons_of_mem n (hsub x hx)⟩

theorem einv_init {g : Graph (Option ε)} (hg : ExecGraph g) : EInv g (initState g) := by
  obtain ⟨hwf, hple⟩ := hg
  have hdisp0 : dispatched (initState g) =
      (g.nodes.filter (fun p => p.2.parents.length = 0)).map Prod.fst := by
    simp [dispatched, initState]
  have hsubl : ((g.nodes.filter (fun p => p.2.parents.length = 0)).map Prod.fst).Sublist
      (keys g) :=
    (List.filter_sublist g.nodes).map Prod.fst
  have hpend_iff : ∀ m, m ∈ dispatched (initState g) ↔
      (m ∈ keys g ∧ (parentsOf g m).length = 0) := by
    intro m
    rw [hdisp0]
    constructor
    · intro hm
      obtain ⟨e, he, hek⟩ := List.mem_map.mp hm
      obtain ⟨hens, hepred⟩ := List.mem_filter.mp he
      have hlk : lookupNode g e.1 = some e.2 := lookup_of_mem_nodup hwf.1 hens
      have hpar : parentsOf g e.1 = e.2.parents := by
        unfold parentsOf
        rw [hlk]
      constructor
      · exact hek ▸ List.mem_map_of_mem Prod.fst hens
      · rw [← hek, hpar]
        simpa using hepred
    · rintro ⟨hmk, hlen⟩
      obtain ⟨nd, hlk⟩ := Option.isSome_iff_exists.mp (lookupNode_isSome_iff.mpr hmk)
      have hmem : (m, nd) ∈ g.nodes := lookup_mem hlk
      have hpar : parentsOf g m = nd.parents := by
        unfold parentsOf
        rw [hlk]
      apply List.mem_map.mpr
      refine ⟨(m, nd), List.mem_filter.mpr ⟨hmem, ?_⟩, rfl⟩
      rw [hpar] at hlen
      simpa using hlen
  refine ⟨?_, ?_, ?_, ?_, ?_⟩
  · rw [hdisp0]
    exact hwf.1.sublist hsubl
  · intro m hm
    exact ((hpend_iff m).mp hm).1
  · intro m
    show ((parentsOf g m).length : Int) = ((pendIncoming g (initState g) m : Nat) : Int)
    congr 1
    unfold pendIncoming
    have hfil : g.nodes.filter (fun q => decide (q.1 ∉ (initState g).succeeded)) =
        g.nodes :=
      List.filter_eq_self.mpr (fun a _ => by simp [initState])
    rw [hfil, hple m]
    rfl
  · intro m hmk
    rw [hpend_iff m]
    constructor
    · rintro ⟨-, hlen⟩
      show ((parentsOf g m).length : Int) = 0
      rw [hlen]
      rfl
    · intro h0
      refine ⟨hmk, ?_⟩
      have : ((parentsOf g m).length : Int) = 0 := h0
      exact_mod_cast this
  · intro m hm
    obtain ⟨hmk, hlen⟩ := (hpend_iff m).mp hm
    refine ⟨[m], ⟨by simp, List.chain'_singleton m, ⟨m, rfl, ?_⟩, rfl⟩, by simp⟩
    rw [← hple m, hlen]

theorem einv_step {g : Graph (Option ε)} (hg : ExecGraph g) {s s' : ExecState ε}
    (hinv : EInv g s) (hstep : ExecStep g s s') : EInv g s' := by
  cases hstep with
  | start n h => exact einv_start hinv h
  | finishOk n nd hr hl ht => exact einv_ok hg hinv hr hl
  | finishFail n nd c hr hl ht => exact einv_fail hinv hr

theorem einv_reach {g : Graph (Option ε)} (hg : ExecGraph g) {s : ExecState ε}
    (h : Reach g s) : EInv g s := by
  induction h with
  | refl => exact einv_init hg
  | tail hsteps hstep ih => exact einv_step hg ih hstep

/-- Core of the dependency-order guarantee: in any reachable state, a node
whose task has started has all of its parents completed successfully. -/
theorem started_parents_succeeded {g : Graph (Option ε)} (hg : ExecGraph g)
    {s : ExecState ε} (h : Reach g s) :
    ∀ n ∈ started s, ∀ p, Edge g p n → p ∈ s.succeeded := by
  have hinv := einv_reach hg h
  intro n hn p hpe
  have hnd : n ∈ dispatched s := by
    unfold started at hn
    unfold dispatched
    simp only [List.mem_append] at hn ⊢
    tauto
  have hnk : n ∈ keys g := hinv.sub n hnd
  have h0 : s.indeg n = 0 := (hinv.disp_iff n hnk).mp hnd
  rw [hinv.indeg_eq n] at h0
  have hpend0 : pendIncoming g s n = 0 := by exact_mod_cast h0
  unfold Edge at hpe
  unfold childrenOf at hpe
  cases hl : lookupNode g p with
  | none => rw [hl] at hpe; cases hpe
  | some ndp =>
    rw [hl] at hpe
    by_contra hps
    have hcle := count_le_pendIncoming hl hps n
    rw [hpend0] at hcle
    have : ndp.children.count n = 0 := Nat.le_zero.mp hcle
    rw [List.count_eq_zero] at this
    exact this hpe

/-- Core of the failure-isolation guarantee: a registered node reachable
only through a failed node is never dispatched, and its counter never
reaches zero. -/
theorem cutoff_never_dispatched {g : Graph (Option ε)} (hg : ExecGraph g)
    {s : ExecState ε} (h : Reach g s) {F n : String}
    (hnk : n ∈ keys g) (hF : F ∈ s.failed) (hne : n ≠ F)
    (honly : ∀ l, RootPath g l n → F ∈ l) :
    n ∉ dispatched s ∧ s.indeg n ≠ 0 := by
  have hinv := einv_reach hg h
  have hnotd : n ∉ dispatched s := by
    intro hnd
    obtain ⟨l, hrp, hsub⟩ := hinv.rootpath n hnd
    have hFl := honly l hrp
    rcases mem_of_getLast? hrp.2.2.2 F hFl with hF' | hF'
    · have hFs : F ∈ s.succeeded := hsub F hF'
      have hnd2 : (((s.pending ++ s.running) ++ s.succeeded) ++ s.failed).Nodup :=
        hinv.nodup
      have hdisj := List.disjoint_of_nodup_append hnd2
      exact hdisj (List.mem_append_right _ hFs) hF
    · exact hne hF'.symm
  refine ⟨hnotd, ?_⟩
  intro h0
  exact hnotd ((hinv.disp_iff n hnk).mpr h0)

/-- With every task completing, no run ever records a failure. -/
theorem noFail_inv {g : Graph (Option ε)} (hall : ∀ e ∈ g.nodes, e.2.task = none)
    {s : ExecState ε} (h : Reach g s) : s.failed = [] ∧ s.errSlot = none := by
  induction h with
  | refl => exact ⟨rfl, rfl⟩
  | tail hsteps hstep ih =>
    cases hstep with
    | start n h => exact ih
    | finishOk n nd hr hl ht => exact ih
    | finishFail n nd c hr hl ht =>
      have := hall (n, nd) (lookup_mem hl)
      rw [this] at ht
      cases ht

/-- A non-terminal state of an all-success run can always step. -/
theorem exec_progress {g : Graph (Option ε)} (hg : ExecGraph g)
    (hall : ∀ e ∈ g.nodes, e.2.task = none) {s : ExecState ε} (hreach : Reach g s)
    (hne : ¬ (s.pending = [] ∧ s.running = [])) : ∃ s', ExecStep g s s' := by
  by_cases hp : s.pending = []
  · have hr : s.running ≠ [] := by tauto
    obtain ⟨n, hn⟩ := List.exists_mem_of_ne_nil s.running hr
    have hinv := einv_reach hg hreach
    have hnk : n ∈ keys g := by
      apply hinv.sub n
      unfold dispatched
      simp [hn]
    obtain ⟨nd, hl⟩ := Option.isSome_iff_exists.mp (lookupNode_isSome_iff.mpr hnk)
    have ht : nd.task = none := hall (n, nd) (lookup_mem hl)
    exact ⟨_, ExecStep.finishOk s n nd hn hl ht⟩
  · obtain ⟨n, hn⟩ := List.exists_mem_of_ne_nil s.pending hp
    exact ⟨_, ExecStep.start s n hn⟩

/-- Termination measure for one run. -/
def runMeasure (g : Graph (Option ε)) (s : ExecState ε) : Nat :=
  2 * s.pending.length + s.running.length +
    3 * (keys g).length - 3 * (dispatched s).length

theorem dispatched_length_le {g : Graph (Option ε)} {s : ExecState ε}
    (hinv : EInv g s) : (dispatched s).length ≤ (keys g).length := by
  have hsp : (dispatched s).Subperm (keys g) :=
    List.subperm_of_subset hinv.nodup (fun x hx => hinv.sub x hx)
  exact hsp.length_le

theorem step_measure {g : Graph (Option ε)} (hg : ExecGraph g) {s s' : ExecState ε}
    (hinv : EInv g s) (hstep : ExecStep g s s') :
    runMeasure g s' < runMeasure g s := by
  have hle := dispatched_length_le hinv
  have hle' := dispatched_length_le (einv_step hg hinv hstep)
  unfold dispatched at hle hle'
  cases hstep with
  | start n h =>
    have hplen : (s.pending.erase n).length = s.pending.length - 1 :=
      List.length_erase_of_mem h
    have hppos : 0 < s.pending.length := List.length_pos_of_mem h
    unfold runMeasure dispatched
    dsimp only at hle' ⊢
    simp only [List.length_append, List.length_cons, hplen] at hle hle' ⊢
    omega
  | finishOk n nd hr hl ht =>
    have hrlen : (s.running.erase n).length = s.running.length - 1 :=
      List.length_erase_of_mem hr
    have hrpos : 0 < s.running.length := List.length_pos_of_mem hr
    unfold runMeasure dispatched
    dsimp only at hle' ⊢
    simp only [List.length_append, List.length_cons, hrlen] at hle hle' ⊢
    omega
  | finishFail n nd c hr hl ht =>
    have hrlen : (s.running.erase n).length = s.running.length - 1 :=
      List.length_erase_of_mem hr
    have hrpos : 0 < s.running.length := List.length_pos_of_mem hr
    unfold runMeasure dispatched
    dsimp only at hle' ⊢
    simp only [List.length_append, List.length_cons, hrlen] at hle hle' ⊢
    omega

/-- Every all-success run can be driven to completion: a reachable state
with nothing pending and nothing running exists. -/
theorem reach_terminal {g : Graph (Option ε)} (hg : ExecGraph g)
    (hall : ∀ e ∈ g.nodes, e.2.task = none) :
    ∃ s : ExecState ε, Reach g s ∧ s.pending = [] ∧ s.running = [] := by
  suffices haux : ∀ (m : Nat) (s : ExecState ε), Reach g s → runMeasure g s ≤ m →
      ∃ t, Reach g t ∧ t.pending = [] ∧ t.running = [] by
    exact haux (runMeasure g (initState g)) (initState g) Relation.ReflTransGen.refl le_rfl
  intro m
  induction m using Nat.strong_induction_on with
  | _ m ih =>
    intro s hs hm
    by_cases hterm : s.pending = [] ∧ s.running = []
    · exact ⟨s, hs, hterm.1, hterm.2⟩
    · obtain ⟨s', hstep⟩ := exec_progress hg hall hs hterm
      have hreach' : Reach g s' := hs.tail hstep
      have hlt : runMeasure g s' < runMeasure g s :=
        step_measure hg (einv_reach hg hs) hstep
      exact ih (runMeasure g s') (lt_of_lt_of_le hlt hm) s' hreach' le_rfl

/-- In a terminal state of an all-success run on an acyclic graph, every
registered node has completed successfully. -/
theorem terminal_all_succeeded {g : Graph (Option ε)} (hg : ExecGraph g)
    (hall : ∀ e ∈ g.nodes, e.2.task = none) (hacyc : ¬ Cyclic g)
    {s : ExecState ε} (hreach : Reach g s)
    (hp : s.pending = []) (hr : s.running = []) :
    ∀ m ∈ keys g, m ∈ s.succeeded := by
  have hinv := einv_reach hg hreach
  have hfail : s.failed = [] := (noFail_inv hall hreach).1
  have hdisp_iff : ∀ m, m ∈ dispatched s ↔ m ∈ s.succeeded := by
    intro m
    unfold dispatched
    simp [hp, hr, hfail]
  by_contra hnot
  push_neg at hnot
  obtain ⟨n0, hn0k, hn0s⟩ := hnot
  have hstepU : ∀ x, x ∈ keys g → x ∉ s.succeeded →
      ∃ p, (p ∈ keys g ∧ p ∉ s.succeeded) ∧ Edge g p x := by
    intro x hxk hxs
    have hxd : x ∉ dispatched s := fun hd => hxs ((hdisp_iff x).mp hd)
    have hne : s.indeg x ≠ 0 := fun h0 => hxd ((hinv.disp_iff x hxk).mpr h0)
    have hpend : pendIncoming g s x ≠ 0 := by
      intro hz
      apply hne
      rw [hinv.indeg_eq x, hz]
      rfl
    unfold pendIncoming at hpend
    have hexists : ∃ q ∈ g.nodes.filter (fun q => decide (q.1 ∉ s.succeeded)),
        q.2.children.count x ≠ 0 := by
      by_contra hz
      push_neg at hz
      apply hpend
      apply List.sum_eq_zero
      intro v hv
      obtain ⟨q, hq, hqv⟩ := List.mem_map.mp hv
      rw [← hqv]
      exact hz q hq
    obtain ⟨q, hq, hqcnt⟩ := hexists
    obtain ⟨hqns, hqpred⟩ := List.mem_filter.mp hq
    have hqk : q.1 ∈ keys g := List.mem_map_of_mem Prod.fst hqns
    have hqsucc : q.1 ∉ s.succeeded := by simpa using hqpred
    have hedge : Edge g q.1 x := by
      show x ∈ childrenOf g q.1
      rw [childrenOf_eq_of_lookup (lookup_of_mem_nodup hg.1.1 hqns)]
      exact List.count_pos_iff.mp (Nat.pos_of_ne_zero hqcnt)
    exact ⟨q.1, ⟨hqk, hqsucc⟩, hedge⟩
  -- iterate the parent choice and find a repetition
  let U : Type := {x : String // x ∈ keys g ∧ x ∉ s.succeeded}
  let step : U → U := fun u =>
    ⟨Classical.choose (hstepU u.1 u.2.1 u.2.2),
      (Classical.choose_spec (hstepU u.1 u.2.1 u.2.2)).1⟩
  have stepEdge : ∀ u : U, Edge g (step u).1 u.1 := fun u =>
    (Classical.choose_spec (hstepU u.1 u.2.1 u.2.2)).2
  let seq : Nat → U := fun k => step^[k] ⟨n0, hn0k, hn0s⟩
  have hseq : ∀ k, seq (k + 1) = step (seq k) := by
    intro k
    show step^[k + 1] _ = _
    rw [Function.iterate_succ_apply']
  have hedge : ∀ k, Edge g (seq (k + 1)).1 (seq k).1 := by
    intro k
    rw [hseq k]
    exact stepEdge (seq k)
  have hpath : ∀ d k, PathNE g (seq (k + d + 1)).1 (seq k).1 := by
    intro d
    induction d with
    | zero => intro k; exact .single (hedge k)
    | succ d ihd =>
      intro k
      have h1 : Edge g (seq (k + (d + 1) + 1)).1 (seq (k + d + 1)).1 := hedge (k + d + 1)
      exact .cons h1 (ihd k)
  -- pigeonhole over the finite key set
  have hcard : ((keys g).toFinset.card : Nat) < Fintype.card (Fin ((keys g).length + 1)) := by
    rw [Fintype.card_fin]
    have := (keys g).toFinset_card_le
    omega
  obtain ⟨i, -, j, -, hij, hfij⟩ :=
    Finset.exists_ne_map_eq_of_card_lt_of_maps_to
      (by rw [Finset.card_univ]; exact hcard)
      (fun (i : Fin ((keys g).length + 1)) (_ : i ∈ Finset.univ) =>
        List.mem_toFinset.mpr ((seq i).2.1))
  rcases Nat.lt_or_ge i.1 j.1 with hlt | hge
  · have hj : (j.1 : Nat) = i.1 + (j.1 - i.1 - 1) + 1 := by omega
    have hpp := hpath (j.1 - i.1 - 1) i.1
    rw [← hj] at hpp
    exact hacyc ⟨(seq j.1).1, by rw [← hfij] at hpp ⊢; exact hpp⟩
  · have hgt : j.1 < i.1 := by
      rcases Nat.lt_or_ge j.1 i.1 with h | h
      · exact h
      · exact absurd (Fin.ext (Nat.le_antisymm h hge)) hij
    have hi : (i.1 : Nat) = j.1 + (i.1 - j.1 - 1) + 1 := by omega
    have hpp := hpath (i.1 - j.1 - 1) j.1
    rw [← hi] at hpp
    exact hacyc ⟨(seq i.1).1, by rw [hfij] at hpp ⊢; exact hpp⟩

end Executor

section Bridge

/-- From the pairing invariant: a node with no incoming edge occurrence
has an empty `parents` slice (so the partial reset of `NewExecutor`, which
skips such nodes, still leaves all `parents` consistent). -/
theorem h0_of_paired {g : Graph α} (hp : Paired g) :
    ∀ n ∈ keys g, incomingCount g n = 0 → parentsOf g n = [] := by
  intro n _ hic
  unfold incomingCount at hic
  rw [List.sum_eq_zero_iff] at hic
  have hall : ∀ p, (childrenOf g p).count n = 0 := by
    intro p
    unfold childrenOf
    cases hl : lookupNode g p with
    | none => simp
    | some nd =>
      exact hic (nd.children.count n)
        (List.mem_map_of_mem (fun q => q.2.children.count n) (lookup_mem hl))
  rw [List.eq_nil_iff_forall_not_mem]
  intro p hpmem
  have hcnt := hp n p
  rw [hall p] at hcnt
  exact (List.count_eq_zero.mp hcnt) hpmem

theorem incomingCount_eq_keys_sum {g : Graph α} (hnd : (keys g).Nodup)
    (n : String) :
    incomingCount g n = ((keys g).map (fun k => (childrenOf g k).count n)).sum := by
  unfold incomingCount keys
  rw [List.map_map]
  congr 1
  apply List.map_congr_left
  intro p hp
  simp only [Function.comp_apply]
  rw [childrenOf_eq_of_lookup (lookup_of_mem_nodup hnd hp)]

/-- `NewExecutor` does not change any node's incoming edge count. -/
theorem incomingCount_NewExecutor {g : Graph α} (hwf : WF g)
    (h0 : ∀ n ∈ keys g, incomingCount g n = 0 → parentsOf g n = [])
    (n : String) : incomingCount (NewExecutor g) n = incomingCount g n := by
  obtain ⟨hch, htk, hkeys, hcnt, hlen⟩ := NewExecutor_spec hwf h0
  have hnd' : (keys (NewExecutor g)).Nodup := by rw [hkeys]; exact hwf.1
  rw [incomingCount_eq_keys_sum hnd' n, incomingCount_eq_keys_sum hwf.1 n, hkeys]
  congr 1
  apply List.map_congr_left
  intro k _
  rw [hch k]

/-- On an API-built graph, `NewExecutor` produces an executor graph:
well-formed and with `parents` lengths equal to the incoming counts. -/
theorem execGraph_of_built {g : Graph (Option ε)} (hb : Built g) :
    ExecGraph (NewExecutor g) := by
  obtain ⟨hwf, hpair, hacyc⟩ := built_inv hb
  have h0 := h0_of_paired hpair
  refine ⟨WF_NewExecutor hwf h0, ?_⟩
  intro n
  rw [(NewExecutor_spec hwf h0).2.2.2.2 n, incomingCount_NewExecutor hwf h0 n]

theorem edge_NewExecutor {g : Graph (Option ε)} (hb : Built g) (a b : String) :
    Edge (NewExecutor g) a b ↔ Edge g a b := by
  obtain ⟨hwf, hpair, hacyc⟩ := built_inv hb
  unfold Edge
  rw [(NewExecutor_spec hwf (h0_of_paired hpair)).1 a]

theorem not_cyclic_NewExecutor {g : Graph (Option ε)} (hb : Built g) :
    ¬ Cyclic (NewExecutor g) := by
  rw [cyclic_congr (edge_NewExecutor hb)]
  exact (built_inv hb).2.2

theorem keys_NewExecutor {g : Graph (Option ε)} (hb : Built g) :
    keys (NewExecutor g) = keys g := by
  obtain ⟨hwf, hpair, hacyc⟩ := built_inv hb
  exact (NewExecutor_spec hwf (h0_of_paired hpair)).2.2.1

theorem rootPath_NewExecutor {g : Graph (Option ε)} (hb : Built g)
    {l : List String} {n : String} (h : RootPath (NewExecutor g) l n) :
    RootPath g l n := by
  obtain ⟨hwf, hpair, hacyc⟩ := built_inv hb
  obtain ⟨hne, hch, ⟨r, hr, hr0⟩, hlast⟩ := h
  refine ⟨hne, ?_, ⟨r, hr, ?_⟩, hlast⟩
  · exact List.Chain'.imp (fun a b hab => (edge_NewExecutor hb a b).mp hab) hch
  · rw [← incomingCount_NewExecutor hwf (h0_of_paired hpair) r]
    exact hr0

/-- Tasks are untouched by `NewExecutor`, entrywise. -/
theorem tasks_none_NewExecutor {g : Graph (Option ε)}
    (hb : Built g) (hall : ∀ e ∈ g.nodes, e.2.task = none) :
    ∀ e ∈ (NewExecutor g).nodes, e.2.task = none := by
  obtain ⟨hwf, hpair, hacyc⟩ := built_inv hb
  have hspec := NewExecutor_spec hwf (h0_of_paired hpair)
  have hnd' : (keys (NewExecutor g)).Nodup := by rw [hspec.2.2.1]; exact hwf.1
  intro e he
  have hl : lookupNode (NewExecutor g) e.1 = some e.2 := lookup_of_mem_nodup hnd' he
  have ht : taskOf (NewExecutor g) e.1 = some e.2.task := by
    unfold taskOf; rw [hl]; rfl
  rw [hspec.2.1 e.1] at ht
  unfold taskOf at ht
  cases hlg : lookupNode g e.1 with
  | none => rw [hlg] at ht; cases ht
  | some nd =>
    rw [hlg] at ht
    have hnd : nd.task = e.2.task := by simpa using ht
    rw [← hnd]
    exact hall (e.1, nd) (lookup_mem hlg)

/-- Completing run of an all-success acyclic executor graph: a terminal
state is reachable in which nothing failed, no error is recorded, and the
succeeded list holds every key exactly once. -/
theorem exec_completes {g : Graph (Option ε)} (hg : ExecGraph g)
    (hacyc : ¬ Cyclic g) (hall : ∀ e ∈ g.nodes, e.2.task = none) :
    ∃ s : ExecState ε, Reach g s ∧ s.pending = [] ∧ s.running = [] ∧
      s.failed = [] ∧ s.errSlot = none ∧
      (∀ m, s.succeeded.count m = if m ∈ keys g then 1 else 0) := by
  obtain ⟨s, hreach, hp, hr⟩ := reach_terminal hg hall
  obtain ⟨hf, he⟩ := noFail_inv hall hreach
  refine ⟨s, hreach, hp, hr, hf, he, ?_⟩
  have hinv := einv_reach hg hreach
  have h1 : (((s.pending ++ s.running) ++ s.succeeded) ++ s.failed).Nodup :=
    hinv.nodup
  have hnds : s.succeeded.Nodup := h1.of_append_left.of_append_right
  intro m
  by_cases hm : m ∈ keys g
  · rw [if_pos hm]
    exact List.count_eq_one_of_mem hnds
      (terminal_all_succeeded hg hall hacyc hreach hp hr m hm)
  · rw [if_neg hm]
    rw [List.count_eq_zero]
    intro hms
    apply hm
    apply hinv.sub m
    unfold dispatched
    simp [hms]

/-- In every run of an all-success graph, `nil` is the only possible
return value of `Execute`. -/
theorem noFail_return {g : Graph (Option ε)}
    (hall : ∀ e ∈ g.nodes, e.2.task = none) :
    ∀ r, CanReturn g r → r = none := by
  rintro r ⟨s, hreach, hcase⟩
  rcases hcase with ⟨hr, -, -⟩ | ⟨e, hre, hslot⟩
  · exact hr
  · rw [(noFail_inv hall hreach).2] at hslot
    cases hslot

/-- No run ever starts a task twice. -/
theorem started_count_le_one {g : Graph (Option ε)} (hg : ExecGraph g)
    {s : ExecState ε} (h : Reach g s) (m : String) :
    (started s).count m ≤ 1 := by
  have hinv := einv_reach hg h
  have h1 : (((s.pending ++ s.running) ++ s.succeeded) ++ s.failed).Nodup :=
    hinv.nodup
  have h2 := List.nodup_iff_count_le_one.mp h1 m
  unfold started
  simp only [List.count_append] at h2 ⊢
  omega

/-- A node with an incoming edge is entered by an edge from inside any of
its root paths. -/
theorem chain_last_edge {g : Graph α} :
    ∀ (l : List String) (a n : String), List.Chain' (Edge g) (a :: l) →
      (a :: l).getLast? = some n → a = n ∨ ∃ u ∈ a :: l, Edge g u n := by
  intro l
  induction l with
  | nil =>
    intro a n _ hlast
    left
    simpa using hlast
  | cons b l'' ih =>
    intro a n hch hlast
    rw [List.chain'_cons] at hch
    have hlast' : (b :: l'').getLast? = some n := by
      rw [← hlast]
      rfl
    rcases ih b n hch.2 hlast' with hbn | ⟨u, hu, he⟩
    · right
      exact ⟨a, List.mem_cons_self a _, hbn ▸ hch.1⟩
    · right
      exact ⟨u, List.mem_cons_of_mem a hu, he⟩

theorem rootPath_last_edge {g : Graph α} {l : List String} {n : String}
    (h : RootPath g l n) (hn : incomingCount g n ≠ 0) :
    ∃ u ∈ l, Edge g u n := by
  obtain ⟨hne, hch, ⟨r, hr, hr0⟩, hlast⟩ := h
  cases l with
  | nil => exact absurd rfl hne
  | cons a l' =>
    have har : a = r := by simpa using hr
    rcases chain_last_edge l' a n hch hlast with han | hex
    · exfalso
      apply hn
      rw [← har, han] at hr0
      exact hr0
    · exact hex

end Bridge

section ConcreteGraphs

/-- Rank argument for concrete acyclicity: a strictly edge-increasing
rank rules out a cycle. -/
theorem pathNE_rank {g : Graph α} (rk : String → Nat)
    (h : ∀ a ∈ keys g, ∀ b ∈ childrenOf g a, rk a < rk b) :
    ∀ {a b}, PathNE g a b → rk a < rk b := by
  intro a b hp
  induction hp with
  | single he => exact h _ (mem_keys_of_edge he) _ he
  | cons he hp ih => exact Nat.lt_trans (h _ (mem_keys_of_edge he) _ he) ih

theorem not_cyclic_of_rank {g : Graph α} (rk : String → Nat)
    (h : ∀ a ∈ keys g, ∀ b ∈ childrenOf g a, rk a < rk b) : ¬ Cyclic g := by
  rintro ⟨n, hp⟩
  exact Nat.lt_irrefl _ (pathNE_rank rk h hp)

/-- A `Precede` call whose edge keeps the graph acyclic succeeds and
returns the `addEdge` graph (which, unlike `Precede` itself, evaluates by
kernel reduction: the cycle check is the only fuelled recursion). -/
theorem precede_success {g : Graph α} (f t : String)
    (hf : (lookupNode g f).isSome = true) (ht : (lookupNode g t).isSome = true)
    (hwfx : WF (addEdge g f t)) (hnc : ¬ Cyclic (addEdge g f t)) :
    Precede g f t = (addEdge g f t, none) := by
  unfold Precede
  have hreg : ((lookupNode g f).isSome && (lookupNode g t).isSome) = true :=
    Bool.and_eq_true_iff.mpr ⟨hf, ht⟩
  have hhc : hasCycle (addEdge g f t) = false := by
    rcases Bool.eq_false_or_eq_true (hasCycle (addEdge g f t)) with h | h
    · exact absurd ((hasCycle_iff_cyclic hwfx).mp h) hnc
    · exact h
  simp only [hreg, if_true, hhc, Bool.false_eq_true, if_false]

/-- Two tasks, `A` preceding `B`, both succeeding. -/
def gAB : Graph (Option Unit) :=
  (Precede (Add (Add TaskGraph "A" none) "B" none) "A" "B").1

theorem hbAB : Built gAB :=
  Built.prec "A" "B" (Built.add "B" none (Built.add "A" none Built.base))

/-- The same graph in evaluable form. -/
def gABv : Graph (Option Unit) :=
  addEdge (Add (Add TaskGraph "A" none) "B" none) "A" "B"

theorem gAB_eq : gAB = gABv := by
  unfold gAB gABv
  rw [precede_success "A" "B" (by decide) (by decide) (by decide)
    (not_cyclic_of_rank (fun s => if s = "A" then 0 else 1) (by decide))]

theorem hbABv : Built gABv := gAB_eq ▸ hbAB

def sAB0 : ExecState Unit := initState (NewExecutor gABv)

def sAB1 : ExecState Unit :=
  { sAB0 with
      pending := sAB0.pending.erase "A"
      running := "A" :: sAB0.running }

def ndAB : Node (Option Unit) := ⟨none, ["B"], [], "A"⟩

def sAB2 : ExecState Unit :=
  { sAB1 with
      running := sAB1.running.erase "A"
      succeeded := "A" :: sAB1.succeeded
      indeg := (decChildren sAB1.indeg ndAB.children).1
      pending := sAB1.pending ++ (decChildren sAB1.indeg ndAB.children).2 }

def sAB3 : ExecState Unit :=
  { sAB2 with
      pending := sAB2.pending.erase "B"
      running := "B" :: sAB2.running }

theorem reach_sAB3 : Reach (NewExecutor gABv) sAB3 := by
  have h1 : ExecStep (NewExecutor gABv) sAB0 sAB1 :=
    ExecStep.start sAB0 "A" (by decide)
  have h2 : ExecStep (NewExecutor gABv) sAB1 sAB2 :=
    ExecStep.finishOk sAB1 "A" ndAB (by decide) (by decide) rfl
  have h3 : ExecStep (NewExecutor gABv) sAB2 sAB3 :=
    ExecStep.start sAB2 "B" (by decide)
  exact ((Relation.ReflTransGen.refl.tail h1).tail h2).tail h3

/-- Three tasks in a line `A → B → C`. -/
def gABC : Graph (Option Unit) :=
  (Precede (Precede (Add (Add (Add TaskGraph "A" none) "B" none) "C" none)
      "A" "B").1 "B" "C").1

theorem hbABC : Built gABC :=
  Built.prec "B" "C" (Built.prec "A" "B"
    (Built.add "C" none (Built.add "B" none (Built.add "A" none Built.base))))

def gABCv : Graph (Option Unit) :=
  addEdge (addEdge (Add (Add (Add TaskGraph "A" none) "B" none) "C" none)
    "A" "B") "B" "C"

def rkABC : String → Nat := fun s => if s = "A" then 0 else if s = "B" then 1 else 2

theorem gABC_eq : gABC = gABCv := by
  unfold gABC gABCv
  rw [precede_success "A" "B" (by decide) (by decide) (by decide)
    (not_cyclic_of_rank rkABC (by decide))]
  rw [precede_success "B" "C" (by decide) (by decide) (by decide)
    (not_cyclic_of_rank rkABC (by decide))]

theorem hbABCv : Built gABCv := gABC_eq ▸ hbABC

/-- Closing the cycle `A → B → C → A`. -/
def gABCc : Graph (Option Unit) := addEdge gABCv "C" "A"

theorem cyc_gABCc : Cyclic gABCc :=
  ⟨"A", PathNE.cons (show Edge gABCc "A" "B" by decide)
      (PathNE.cons (show Edge gABCc "B" "C" by decide)
        (PathNE.single (show Edge gABCc "C" "A" by decide)))⟩

/-- One task `A` whose operation fails with cause `()`. -/
def gA1 : Graph (Option Unit) := Add TaskGraph "A" (some ())

theorem hbA1 : Built gA1 := Built.add "A" (some ()) Built.base

def sA10 : ExecState Unit := initState (NewExecutor gA1)

def sA11 : ExecState Unit :=
  { sA10 with
      pending := sA10.pending.erase "A"
      running := "A" :: sA10.running }

def ndA1 : Node (Option Unit) := ⟨some (), [], [], "A"⟩

def sA1f : ExecState Unit :=
  { sA11 with
      running := sA11.running.erase "A"
      failed := "A" :: sA11.failed
      errSlot := some ⟨"A", ()⟩ }

theorem reach_sA1f : Reach (NewExecutor gA1) sA1f := by
  have h1 : ExecStep (NewExecutor gA1) sA10 sA11 :=
    ExecStep.start sA10 "A" (by decide)
  have h2 : ExecStep (NewExecutor gA1) sA11 sA1f :=
    ExecStep.finishFail sA11 "A" ndA1 () (by decide) (by decide) rfl
  exact (Relation.ReflTransGen.refl.tail h1).tail h2

/-- Graph `A → B` where the task of `A` fails: `B` is cut off. -/
def gAF : Graph (Option Unit) :=
  (Precede (Add (Add TaskGraph "A" (some ())) "B" none) "A" "B").1

theorem hbAF : Built gAF :=
  Built.prec "A" "B" (Built.add "B" none (Built.add "A" (some ()) Built.base))

def gAFv : Graph (Option Unit) :=
  addEdge (Add (Add TaskGraph "A" (some ())) "B" none) "A" "B"

theorem gAF_eq : gAF = gAFv := by
  unfold gAF gAFv
  rw [precede_success "A" "B" (by decide) (by decide) (by decide)
    (not_cyclic_of_rank (fun s => if s = "A" then 0 else 1) (by decide))]

theorem hbAFv : Built gAFv := gAF_eq ▸ hbAF

def sF0 : ExecState Unit := initState (NewExecutor gAFv)

def sF1 : ExecState Unit :=
  { sF0 with
      pending := sF0.pending.erase "A"
      running := "A" :: sF0.running }

def ndAF : Node (Option Unit) := ⟨some (), ["B"], [], "A"⟩

def sF2 : ExecState Unit :=
  { sF1 with
      running := sF1.running.erase "A"
      failed := "A" :: sF1.failed
      errSlot := some ⟨"A", ()⟩ }

theorem reach_sF2 : Reach (NewExecutor gAFv) sF2 := by
  have h1 : ExecStep (NewExecutor gAFv) sF0 sF1 :=
    ExecStep.start sF0 "A" (by decide)
  have h2 : ExecStep (NewExecutor gAFv) sF1 sF2 :=
    ExecStep.finishFail sF1 "A" ndAF () (by decide) (by decide) rfl
  exact (Relation.ReflTransGen.refl.tail h1).tail h2

/-- Every root path of `gAFv` reaching `B` passes through `A` (the only
node with `B` among its children). -/
theorem honly_gAF : ∀ l, RootPath gAFv l "B" → "A" ∈ l := by
  intro l hl
  obtain ⟨u, hu, he⟩ := rootPath_last_edge hl (by decide)
  have hk : u ∈ keys gAFv := mem_keys_of_edge he
  have hkeq : keys gAFv = ["A", "B"] := by decide
  rw [hkeq] at hk
  simp only [List.mem_cons, List.not_mem_nil, or_false] at hk
  rcases hk with h1 | h1
  · rw [← h1]
    exact hu
  · exfalso
    rw [h1] at he
    revert he
    decide

end ConcreteGraphs

section RaceModel

/-- State of the unsynchronized decrement loop of `Execute` at memory
granularity.  `workers` holds, for each concurrently finishing parent
task goroutine, the suffix of its `children` slice it still has to
process, together with the value its in-flight `inDegree[child]--` has
loaded but not yet stored (the line compiles to a map load followed by a
map store, with no mutex, atomic or coordinating goroutine around them). -/
structure FineState where
  indeg : String → Int
  pending : List String
  workers : List (List String × Option Int)

/-- One memory event of the decrement loop of `Execute` (`inDegree[child]--`
followed by `if inDegree[child] == 0 { ready <- child }`): a worker loads
the counter of its current child, or stores the decremented value, moving to
its next child and enqueueing the child exactly when the stored value is
zero.  Interleaving the loads and stores of different workers is what
running the loop in concurrent goroutines without synchronization
permits. -/
inductive FineStep : FineState → FineState → Prop
  | load (s : FineState) (i : Nat) (c : String) (cs : List String)
      (h : s.workers.get? i = some (c :: cs, none)) :
      FineStep s { s with workers := s.workers.set i (c :: cs, some (s.indeg c)) }
  | store (s : FineState) (i : Nat) (c : String) (cs : List String) (v : Int)
      (h : s.workers.get? i = some (c :: cs, some v)) :
      FineStep s { s with
        indeg := fun x => if x = c then v - 1 else s.indeg x
        workers := s.workers.set i (cs, none)
        pending := s.pending ++ if v - 1 = 0 then [c] else [] }

/-- Diamond `P1 → D`, `P2 → D` built through the public API. -/
def gRace : Graph (Option Unit) :=
  (Precede (Precede (Add (Add (Add TaskGraph "P1" none) "P2" none) "D" none)
      "P1" "D").1 "P2" "D").1

theorem hbRace : Built gRace :=
  Built.prec "P2" "D" (Built.prec "P1" "D"
    (Built.add "D" none (Built.add "P2" none (Built.add "P1" none Built.base))))

def gRacev : Graph (Option Unit) :=
  addEdge (addEdge (Add (Add (Add TaskGraph "P1" none) "P2" none) "D" none)
    "P1" "D") "P2" "D"

def rkRace : String → Nat := fun s => if s = "D" then 1 else 0

theorem gRace_eq : gRace = gRacev := by
  unfold gRace gRacev
  rw [precede_success "P1" "D" (by decide) (by decide) (by decide)
    (not_cyclic_of_rank rkRace (by decide))]
  rw [precede_success "P2" "D" (by decide) (by decide) (by decide)
    (not_cyclic_of_rank rkRace (by decide))]

theorem hbRacev : Built gRacev := gRace_eq ▸ hbRace

/-- The moment both `P1` and `P2` have completed concurrently: each
goroutine is about to run its decrement loop over its `children`, and the
shared counters are those `Execute` initialized from the executor graph. -/
def fineInit : FineState :=
  { indeg := fun n => ((parentsOf (NewExecutor gRacev) n).length : Int)
    pending := []
    workers := [(childrenOf (NewExecutor gRacev) "P1", none),
                (childrenOf (NewExecutor gRacev) "P2", none)] }

def fineR1 : FineState :=
  { fineInit with workers := fineInit.workers.set 0 (["D"], some (fineInit.indeg "D")) }

def fineR2 : FineState :=
  { fineR1 with workers := fineR1.workers.set 1 (["D"], some (fineR1.indeg "D")) }

def fineR3 : FineState :=
  { fineR2 with
      indeg := fun x => if x = "D" then fineInit.indeg "D" - 1 else fineR2.indeg x
      workers := fineR2.workers.set 0 ([], none)
      pending := fineR2.pending ++ if fineInit.indeg "D" - 1 = 0 then ["D"] else [] }

def fineR4 : FineState :=
  { fineR3 with
      indeg := fun x => if x = "D" then fineR1.indeg "D" - 1 else fineR3.indeg x
      workers := fineR3.workers.set 1 ([], none)
      pending := fineR3.pending ++ if fineR1.indeg "D" - 1 = 0 then ["D"] else [] }

def fineT2 : FineState :=
  { fineR1 with
      indeg := fun x => if x = "D" then fineInit.indeg "D" - 1 else fineR1.indeg x
      workers := fineR1.workers.set 0 ([], none)
      pending := fineR1.pending ++ if fineInit.indeg "D" - 1 = 0 then ["D"] else [] }

def fineT3 : FineState :=
  { fineT2 with workers := fineT2.workers.set 1 (["D"], some (fineT2.indeg "D")) }

def fineT4 : FineState :=
  { fineT3 with
      indeg := fun x => if x = "D" then fineT2.indeg "D" - 1 else fineT3.indeg x
      workers := fineT3.workers.set 1 ([], none)
      pending := fineT3.pending ++ if fineT2.indeg "D" - 1 = 0 then ["D"] else [] }

/-- The racy interleaving: both workers load the counter of `D` before
either stores, so both store 1 and neither enqueues `D` (a lost update). -/
theorem fine_race_trace : Relation.ReflTransGen FineStep fineInit fineR4 := by
  have h1 : FineStep fineInit fineR1 :=
    FineStep.load fineInit 0 "D" [] (by decide)
  have h2 : FineStep fineR1 fineR2 :=
    FineStep.load fineR1 1 "D" [] (by decide)
  have h3 : FineStep fineR2 fineR3 :=
    FineStep.store fineR2 0 "D" [] (fineInit.indeg "D") (by decide)
  have h4 : FineStep fineR3 fineR4 :=
    FineStep.store fineR3 1 "D" [] (fineR1.indeg "D") (by decide)
  exact (((Relation.ReflTransGen.refl.tail h1).tail h2).tail h3).tail h4

/-- The serialized interleaving of the same events: the second worker
loads 1, its store reaches zero, and `D` is enqueued exactly once. -/
theorem fine_serial_trace : Relation.ReflTransGen FineStep fineInit fineT4 := by
  have h1 : FineStep fineInit fineR1 :=
    FineStep.load fineInit 0 "D" [] (by decide)
  have h2 : FineStep fineR1 fineT2 :=
    FineStep.store fineR1 0 "D" [] (fineInit.indeg "D") (by decide)
  have h3 : FineStep fineT2 fineT3 :=
    FineStep.load fineT2 1 "D" [] (by decide)
  have h4 : FineStep fineT3 fineT4 :=
    FineStep.store fineT3 1 "D" [] (fineT2.indeg "D") (by decide)
  exact (((Relation.ReflTransGen.refl.tail h1).tail h2).tail h3).tail h4

end RaceModel

section Claims

/-- C1: in every run of `Execute` on an executor built from an API-built
graph, a node whose task has started has every one of its parents in the
succeeded list: no task starts before all of its parent tasks have
completed successfully, so each parent precedes each of its children in
any execution order `Execute` can produce. -/
theorem claim_C1 {g : Graph (Option ε)} (hb : Built g) {s : ExecState ε}
    (h : Reach (NewExecutor g) s) :
    ∀ n ∈ started s, ∀ p, Edge g p n → p ∈ s.succeeded := by
  intro n hn p hpe
  exact started_parents_succeeded (execGraph_of_built hb) h n hn p
    ((edge_NewExecutor hb p n).mpr hpe)

theorem claim_C1_witness : "A" ∈ sAB3.succeeded :=
  claim_C1 hbABv reach_sAB3 "B" (by decide) "A" (by decide)

/-- C2: `Precede` fails with `nodeNotFound` when either endpoint is
unregistered and fails with `cycleDetected` when the inserted edge closes
a cycle; in both failure cases the returned graph is structurally equal
to the input, and on success exactly the one new edge is appended (keys
unchanged, `to` appended to the children of `from`, `from` appended to
the parents of `to`, all other adjacency untouched). -/
theorem claim_C2 {g : Graph α} (hb : Built g) (f t : String) :
    (¬ ((lookupNode g f).isSome = true ∧ (lookupNode g t).isSome = true) →
      (Precede g f t).2 = some PrecedeError.nodeNotFound ∧ (Precede g f t).1 = g) ∧
    ((lookupNode g f).isSome = true → (lookupNode g t).isSome = true →
      (Cyclic (addEdge g f t) →
        (Precede g f t).2 = some PrecedeError.cycleDetected ∧ (Precede g f t).1 = g) ∧
      (¬ Cyclic (addEdge g f t) →
        (Precede g f t).2 = none ∧
        keys (Precede g f t).1 = keys g ∧
        (∀ x, childrenOf (Precede g f t).1 x =
          if x = f then childrenOf g x ++ [t] else childrenOf g x) ∧
        (∀ x, parentsOf (Precede g f t).1 x =
          if x = t then parentsOf g x ++ [f] else parentsOf g x))) := by
  obtain ⟨hwf, hpair, hacyc⟩ := built_inv hb
  constructor
  · intro hnot
    have hcond : ((lookupNode g f).isSome && (lookupNode g t).isSome) = false := by
      rcases Bool.eq_false_or_eq_true
          ((lookupNode g f).isSome && (lookupNode g t).isSome) with h | h
      · exact absurd (Bool.and_eq_true_iff.mp h) hnot
      · exact h
    unfold Precede
    simp only [hcond, Bool.false_eq_true, if_false]
    exact ⟨trivial, trivial⟩
  · intro hf ht
    have hcond : ((lookupNode g f).isSome && (lookupNode g t).isSome) = true :=
      Bool.and_eq_true_iff.mpr ⟨hf, ht⟩
    have hwfx : WF (addEdge g f t) := WF_addEdge hwf (lookupNode_isSome_iff.mp ht)
    constructor
    · intro hcyc
      have hhc : hasCycle (addEdge g f t) = true :=
        (hasCycle_iff_cyclic hwfx).mpr hcyc
      unfold Precede
      simp only [hcond, if_true, hhc]
      exact ⟨trivial, rollbackEdge_addEdge g f t⟩
    · intro hncyc
      have hhc : hasCycle (addEdge g f t) = false := by
        rcases Bool.eq_false_or_eq_true (hasCycle (addEdge g f t)) with h | h
        · exact absurd ((hasCycle_iff_cyclic hwfx).mp h) hncyc
        · exact h
      unfold Precede
      simp only [hcond, if_true, hhc, Bool.false_eq_true, if_false]
      exact ⟨trivial, keys_addEdge g f t,
        fun x => childrenOf_addEdge hf t x, fun x => parentsOf_addEdge ht f x⟩

theorem claim_C2_witness :
    (Precede gABCv "C" "A").2 = some PrecedeError.cycleDetected ∧
    (Precede gABCv "C" "A").1 = gABCv :=
  ((claim_C2 hbABCv "C" "A").2 (by decide) (by decide)).1 cyc_gABCc

/-- C3: refuted (code defect).  The claim says that on an API-built
graph whose tasks all complete without failure, `Execute` returns
success and the task of each registered node is executed exactly once.
Under the serialized decrement discipline the spec mandates this is
true (`exec_completes`, `noFail_return`, `started_count_le_one`), but
the decrement loop of the code is an unsynchronized load/store pair per
child (`FineStep`), and for the API-built all-success diamond
`P1 → D`, `P2 → D` a complete lost-update interleaving leaves the
counter of `D` at 1 forever: both parent workers run their loops to the
end, `D` is never enqueued and its task is never invoked — zero times,
not once — while the WaitGroup still drains (`D` was never added to it)
and `Execute` returns `nil`. -/
theorem claim_C3 :
    Built gRacev ∧ (∀ e ∈ gRacev.nodes, e.2.task = none) ∧ "D" ∈ keys gRacev ∧
    ∃ s : FineState, Relation.ReflTransGen FineStep fineInit s ∧
      (∀ w ∈ s.workers, w.1 = []) ∧ s.pending.count "D" = 0 ∧ s.indeg "D" ≠ 0 :=
  ⟨hbRacev, by decide, by decide,
    fineR4, fine_race_trace, by decide, by decide, by decide⟩

/-- C4: refuted (code defect).  The claim says every run with a failed
task returns an error.  In the code, when every dispatched goroutine has
finished the WaitGroup hits zero and `finished` closes even if a failure
was recorded in the one-slot `errors` channel; the Go `select` then picks
uniformly among the ready cases and may take `finished`, returning `nil`.
The theorem exhibits an API-built one-task graph whose task fails, a
complete run of it whose failed list is nonempty and whose error slot
holds the wrapped failure, and shows `Execute` can nevertheless return
`none` from that very run (and can also return the recorded error — the
outcome is a race between the two channels). -/
theorem claim_C4 :
    ∃ g : Graph (Option Unit), Built g ∧
      ∃ s : ExecState Unit, Reach (NewExecutor g) s ∧
        s.pending = [] ∧ s.running = [] ∧ s.failed = ["A"] ∧
        s.errSlot = some ⟨"A", ()⟩ ∧
        CanReturn (NewExecutor g) none ∧
        CanReturn (NewExecutor g) (some ⟨"A", ()⟩) := by
  refine ⟨gA1, hbA1, sA1f, reach_sA1f, by decide, by decide, by decide, by decide,
    ⟨sA1f, reach_sA1f, Or.inl ⟨rfl, by decide, by decide⟩⟩,
    ⟨sA1f, reach_sA1f, Or.inr ⟨⟨"A", ()⟩, rfl, by decide⟩⟩⟩

/-- C5: every graph reachable through the public construction API
(`TaskGraph`, `Add`, `Precede`, `Succeed`) has an acyclic `children`
graph: each operation preserves acyclicity. -/
theorem claim_C5 {g : Graph α} (hb : Built g) : ¬ Cyclic g :=
  (built_inv hb).2.2

theorem claim_C5_witness : ¬ Cyclic gABv := claim_C5 hbABv

/-- C6: in any run on an executor built from an API-built graph, a
registered node reachable only through a failed node (every dependency-
complete root path to it passes through the failed node) is never
dispatched, and its in-degree counter never reaches zero. -/
theorem claim_C6 {g : Graph (Option ε)} (hb : Built g) {s : ExecState ε}
    (h : Reach (NewExecutor g) s) (F n : String) (hnk : n ∈ keys g)
    (hF : F ∈ s.failed) (hne : n ≠ F)
    (honly : ∀ l, RootPath g l n → F ∈ l) :
    n ∉ dispatched s ∧ s.indeg n ≠ 0 := by
  have hnk' : n ∈ keys (NewExecutor g) := by
    rw [keys_NewExecutor hb]
    exact hnk
  exact cutoff_never_dispatched (execGraph_of_built hb) h hnk' hF hne
    (fun l hrp => honly l (rootPath_NewExecutor hb hrp))

theorem claim_C6_witness : "B" ∉ dispatched sF2 ∧ sF2.indeg "B" ≠ 0 :=
  claim_C6 hbAFv reach_sF2 "A" "B" (by decide) (by decide) (by decide) honly_gAF

/-- C7: `Succeed(from, to)` is literally `Precede(to, from)`: same
returned error and the very same resulting graph, for every starting
graph and all names. -/
theorem claim_C7 (g : Graph α) (f t : String) : Succeed g f t = Precede g t f :=
  rfl

/-- C8: on an API-built graph, `NewExecutor` recomputes the
`parents` of every node purely from the `children` edges across the whole graph — the
multiplicity of `p` in the parents of `n` equals the multiplicity of `n`
in the children of `p` — while changing no children, no task and
no key, so a `Graph` can be reused across executors. -/
theorem claim_C8 {g : Graph α} (hb : Built g) :
    (∀ x, childrenOf (NewExecutor g) x = childrenOf g x) ∧
    (∀ x, taskOf (NewExecutor g) x = taskOf g x) ∧
    keys (NewExecutor g) = keys g ∧
    (∀ n p, (parentsOf (NewExecutor g) n).count p = (childrenOf g p).count n) := by
  obtain ⟨hwf, hpair, hacyc⟩ := built_inv hb
  obtain ⟨h1, h2, h3, h4, h5⟩ := NewExecutor_spec hwf (h0_of_paired hpair)
  exact ⟨h1, h2, h3, h4⟩

theorem claim_C8_witness :
    (parentsOf (NewExecutor gABv) "B").count "A" =
      (childrenOf gABv "A").count "B" :=
  (claim_C8 hbABv).2.2.2 "B" "A"

/-- C9: registering a name that is already present is a complete no-op:
`Add` returns the graph unchanged (same node, same task, same edges,
every other node untouched), and the operation has no error to signal. -/
theorem claim_C9 {g : Graph α} (name : String)
    (h : (lookupNode g name).isSome = true) (task : α) :
    Add g name task = g := by
  unfold Add
  rw [if_pos h]

theorem claim_C9_witness : Add gABv "A" none = gABv :=
  claim_C9 "A" (by decide) none

/-- C10: refuted (code defect).  The claim says the concurrent
`inDegree[child]--` decrements and the enqueue-when-zero dispatch are
protected by a synchronization discipline so that each node is enqueued
exactly once when its counter reaches zero.  The code has no mutex,
atomic or coordinating goroutine around that line, so each decrement is
an unsynchronized load/store pair on the shared map (`FineStep`).  For
the API-built diamond `P1 → D`, `P2 → D` with both parents finishing
concurrently, one complete interleaving of those loads and stores loses
an update: both workers load 2 and both store 1, the counter of `D` stays
at 1 forever and `D` is enqueued zero times — while the serialized
interleaving of the same events enqueues `D` exactly once and drives its
counter to zero.  The claimed discipline does not exist and the
exactly-once dispatch fails. -/
theorem claim_C10 :
    Built gRace ∧
    (∃ s : FineState, Relation.ReflTransGen FineStep fineInit s ∧
      (∀ w ∈ s.workers, w.1 = []) ∧ s.pending.count "D" = 0 ∧ s.indeg "D" ≠ 0) ∧
    (∃ s : FineState, Relation.ReflTransGen FineStep fineInit s ∧
      (∀ w ∈ s.workers, w.1 = []) ∧ s.pending.count "D" = 1 ∧ s.indeg "D" = 0) := by
  exact ⟨hbRace, ⟨fineR4, fine_race_trace, by decide, by decide, by decide⟩,
    ⟨fineT4, fine_serial_trace, by decide, by decide, by decide⟩⟩

end Claims

end Leo
